import Mathlib

/-!
# Verification of the dmdb dialect layer of sequelize-dm8

Shallow embedding, in Lean 4, of the dmdb (DM8) dialect components of the
sequelize-dm8 repository:

* `lib/dialects/dmdb/connection-manager.js` (connect / disconnect / validate),
* `lib/dialects/dmdb/query-generator.js` (createTableQuery, upsertQuery,
  attributeToSQL, _checkValidJsonStatement),
* `lib/dialects/dmdb/query.js` (run's boolean rewrite, formatError),
* `lib/dialects/dmdb/data-types.js` (GEOMETRY.parse).

Strings are modelled as `List Char` (`Str`); machine-level drivers, the
network, and the wkx WKB parser are abstracted at their interface boundary.
Definitions follow the JavaScript source line by line; helpers that embed a
JavaScript regular expression document the regex they implement and the
derivation of its match semantics.
-/

abbrev Str := List Char

/-- `hasSubstring pat l` decides whether `pat` occurs as a contiguous
substring of `l` (the semantics of JavaScript `String.prototype.includes`). -/
def hasSubstring (pat : Str) : Str → Bool
  | [] => pat.isEmpty
  | c :: cs => pat.isPrefixOf (c :: cs) || hasSubstring pat cs

/-- Substring test on Lean `String`s via their character lists. -/
def strIncludes (pat s : String) : Bool := hasSubstring pat.data s.data

/-- `splitOnChar sep l` splits `l` at every occurrence of `sep`
(the semantics of JavaScript `String.prototype.split` with a
single-character separator: `"john-7".split('-') = ["john","7"]`,
`"".split('-') = [""]`). -/
def splitOnChar (sep : Char) : Str → List Str
  | [] => [[]]
  | c :: cs =>
    let rest := splitOnChar sep cs
    if c = sep then [] :: rest
    else match rest with
      | [] => [[c]]
      | r :: rs => (c :: r) :: rs

theorem splitOnChar_ne_nil (sep : Char) (l : Str) : splitOnChar sep l ≠ [] := by
  induction l with
  | nil => simp [splitOnChar]
  | cons c cs ih =>
    simp only [splitOnChar]
    split
    · simp
    · cases h : splitOnChar sep cs with
      | nil => simp
      | cons r rs => simp

/-! ## Connection manager (`lib/dialects/dmdb/connection-manager.js`)

The driver connection handle is opaque; the manager reads only the four
boolean flags used by `validate`, the `_closing` flag used by `disconnect`,
and the `errCode` string of a failed connection attempt. -/

/-- The observable state of a dmdb driver connection: the four derived
booleans the connection manager reads (`_fatalError`, `_protocolError`,
`_closing`, `closed`) plus an opaque identifier standing for the rest of
the driver-owned resource. -/
structure DmdbConnection where
  fatalError : Bool
  protocolError : Bool
  closing : Bool
  closed : Bool
  handle : Nat
deriving Repr, DecidableEq

/-- `ConnectionManager.validate(connection)`:

```js
validate(connection) {
  return connection
    && !connection._fatalError
    && !connection._protocolError
    && !connection._closing
    && !connection.closed;
}
```

An absent (`null`/`undefined`) connection is modelled as `none`; JavaScript
returns the falsy connection value itself in that case, which coerces to
`false` as a predicate. -/
def dmdbValidate : Option DmdbConnection → Bool
  | none => false
  | some c => !c.fatalError && !c.protocolError && !c.closing && !c.closed

/-- The action `ConnectionManager.disconnect(connection)` takes towards the
driver: either it returns immediately (`skip`) or it issues
`connection.close(callback)` (`closeCall`). -/
inductive DisconnectAction where
  | skip
  | closeCall
deriving Repr, DecidableEq

/-- `ConnectionManager.disconnect(connection)`:

```js
async disconnect(connection) {
  // Don't disconnect connections with CLOSED state
  if (connection._closing) {
    debug('connection tried to disconnect but was already at CLOSED state');
    return;
  }
  return await promisify(callback => connection.close(callback))();
}
```

Only the `_closing` flag is consulted. -/
def dmdbDisconnect (c : DmdbConnection) : DisconnectAction :=
  if c.closing then .skip else .closeCall

/-- The typed connection-error taxonomy of `lib/errors` used by
`ConnectionManager.connect`'s failure classification. -/
inductive ConnErrorKind where
  | refused
  | accessDenied
  | hostNotFound
  | hostNotReachable
  | invalidConnection
  | generic
deriving Repr, DecidableEq

/-- A driver error as observed by `connect`'s catch block: the `errCode`
string the switch dispatches on, plus an opaque payload standing for the
rest of the original error object. -/
structure DriverConnError where
  errCode : String
  payload : Nat
deriving Repr, DecidableEq

/-- A typed connection error: the classified kind together with the
original driver error it wraps (every `SequelizeErrors.*ConnectionError`
constructor receives `err` as its parent). -/
structure TypedConnError where
  kind : ConnErrorKind
  parent : DriverConnError
deriving Repr, DecidableEq

/-- The `switch (err.errCode)` in `ConnectionManager.connect`'s catch block:

```js
switch (err.errCode) {
  case 'ECONNREFUSED': throw new SequelizeErrors.ConnectionRefusedError(err);
  case 'ER_ACCESS_DENIED_ERROR': throw new SequelizeErrors.AccessDeniedError(err);
  case 'ENOTFOUND': throw new SequelizeErrors.HostNotFoundError(err);
  case 'EHOSTUNREACH': throw new SequelizeErrors.HostNotReachableError(err);
  case 'EINVAL': throw new SequelizeErrors.InvalidConnectionError(err);
  default: throw new SequelizeErrors.ConnectionError(err);
}
``` -/
def dmdbClassifyConnectError (err : DriverConnError) : TypedConnError :=
  if err.errCode = "ECONNREFUSED" then ⟨.refused, err⟩
  else if err.errCode = "ER_ACCESS_DENIED_ERROR" then ⟨.accessDenied, err⟩
  else if err.errCode = "ENOTFOUND" then ⟨.hostNotFound, err⟩
  else if err.errCode = "EHOSTUNREACH" then ⟨.hostNotReachable, err⟩
  else if err.errCode = "EINVAL" then ⟨.invalidConnection, err⟩
  else ⟨.generic, err⟩

/-! ## GEOMETRY.parse (`lib/dialects/dmdb/data-types.js`)

```js
static parse(value) {
  value = value.buffer();
  if (!value || value.length === 0) {
    return null;
  }
  value = value.slice(4);
  return wkx.Geometry.parse(value).toGeoJSON({ shortCrs: true });
}
```

The raw driver value is abstracted to the byte buffer `value.buffer()`
yields (`none` when the driver returns a null buffer); the external wkx
WKB-to-GeoJSON parser is abstracted as the function argument
`wkbToGeoJSON`. -/
def geometryParse {G : Type} (wkbToGeoJSON : List Nat → G)
    (buffer : Option (List Nat)) : Option G :=
  match buffer with
  | none => none
  | some bytes =>
    if bytes.length = 0 then none
    else some (wkbToGeoJSON (bytes.drop 4))

/-! ### Theorems: connection manager and geometry parsing -/

/-- **C8**. `validate(connection)` is a pure predicate: for a present
connection it returns `true` exactly when all four flags `_fatalError`,
`_protocolError`, `_closing`, `closed` are false — equivalently, it
returns `false` whenever any of the four flags is true. -/
theorem dmdbValidate_spec (c : DmdbConnection) :
    dmdbValidate (some c) = true ↔
      c.fatalError = false ∧ c.protocolError = false ∧
      c.closing = false ∧ c.closed = false := by
  simp only [dmdbValidate, Bool.and_eq_true, Bool.not_eq_true']
  tauto

/-- Witness for C8: a concrete connection with all flags clear validates
to `true` via `dmdbValidate_spec`, and `dmdbValidate` evaluates. -/
theorem dmdbValidate_spec_witness :
    dmdbValidate (some ⟨false, false, false, false, 0⟩) = true :=
  (dmdbValidate_spec ⟨false, false, false, false, 0⟩).mpr
    ⟨rfl, rfl, rfl, rfl⟩

/-- **C5 (counterexample)**. The claim says a connection already in the
*Closed* state returns immediately without a driver close call; but for a
connection with `closed = true` and `_closing = false`, `disconnect`
issues the driver close call. -/
theorem dmdbDisconnect_closed_counterexample :
    dmdbDisconnect ⟨false, false, false, true, 0⟩ = .closeCall := by
  rfl

/-- **C5 (amended)**. `disconnect` returns immediately without a driver
close call exactly when the connection's `_closing` flag is set; in every
other case — including a connection whose `closed` flag is set but whose
`_closing` flag is not — it issues the driver close call. -/
theorem dmdbDisconnect_spec (c : DmdbConnection) :
    dmdbDisconnect c = (if c.closing then .skip else .closeCall) := rfl

/-- **C6**. `connect`'s failure classification is determined solely by the
driver error code: each of the five recognized codes maps to its typed
error, every other code falls through to the generic `ConnectionError`
(so classification is total and never fails), and every typed error
carries the original driver error as its parent. -/
theorem dmdbClassifyConnectError_spec :
    (∀ e : DriverConnError, (dmdbClassifyConnectError e).parent = e) ∧
    (∀ e : DriverConnError, e.errCode = "ECONNREFUSED" →
      (dmdbClassifyConnectError e).kind = .refused) ∧
    (∀ e : DriverConnError, e.errCode = "ER_ACCESS_DENIED_ERROR" →
      (dmdbClassifyConnectError e).kind = .accessDenied) ∧
    (∀ e : DriverConnError, e.errCode = "ENOTFOUND" →
      (dmdbClassifyConnectError e).kind = .hostNotFound) ∧
    (∀ e : DriverConnError, e.errCode = "EHOSTUNREACH" →
      (dmdbClassifyConnectError e).kind = .hostNotReachable) ∧
    (∀ e : DriverConnError, e.errCode = "EINVAL" →
      (dmdbClassifyConnectError e).kind = .invalidConnection) ∧
    (∀ e : DriverConnError,
      e.errCode ≠ "ECONNREFUSED" → e.errCode ≠ "ER_ACCESS_DENIED_ERROR" →
      e.errCode ≠ "ENOTFOUND" → e.errCode ≠ "EHOSTUNREACH" →
      e.errCode ≠ "EINVAL" →
      (dmdbClassifyConnectError e).kind = .generic) := by
  refine ⟨?_, ?_, ?_, ?_, ?_, ?_, ?_⟩
  · intro e; unfold dmdbClassifyConnectError; split_ifs <;> rfl
  · rintro ⟨ec, p⟩ h; cases h; rfl
  · rintro ⟨ec, p⟩ h; cases h; rfl
  · rintro ⟨ec, p⟩ h; cases h; rfl
  · rintro ⟨ec, p⟩ h; cases h; rfl
  · rintro ⟨ec, p⟩ h; cases h; rfl
  · intro e h1 h2 h3 h4 h5; unfold dmdbClassifyConnectError
    split_ifs <;> simp_all

/-- Witness for C6: the unrecognized code `"EPIPE"` classifies to the
generic `ConnectionError` with the original error as parent, via
`dmdbClassifyConnectError_spec`. -/
theorem dmdbClassifyConnectError_spec_witness :
    (dmdbClassifyConnectError ⟨"EPIPE", 7⟩).kind = .generic ∧
    (dmdbClassifyConnectError ⟨"EPIPE", 7⟩).parent = ⟨"EPIPE", 7⟩ :=
  ⟨dmdbClassifyConnectError_spec.2.2.2.2.2.2 ⟨"EPIPE", 7⟩
      (by decide) (by decide) (by decide) (by decide) (by decide),
    dmdbClassifyConnectError_spec.1 ⟨"EPIPE", 7⟩⟩

/-- **C9**. `GEOMETRY.parse` returns `null` for an absent or empty buffer,
and otherwise strips the first 4 bytes (the driver's header prefix) and
WKB-parses the remainder. -/
theorem geometryParse_spec :
    (∀ (G : Type) (f : List Nat → G), geometryParse f none = none) ∧
    (∀ (G : Type) (f : List Nat → G), geometryParse f (some []) = none) ∧
    (∀ (G : Type) (f : List Nat → G) (bytes : List Nat), bytes ≠ [] →
      geometryParse f (some bytes) = some (f (bytes.drop 4))) := by
  refine ⟨fun G f => rfl, fun G f => rfl, fun G f bytes h => ?_⟩
  simp [geometryParse, List.length_eq_zero, h]

/-- Witness for C9: a concrete 5-byte buffer is parsed by dropping its
4-byte header, via `geometryParse_spec`. -/
theorem geometryParse_spec_witness :
    geometryParse (fun bs => bs.length) (some [1, 0, 0, 0, 42]) = some 1 :=
  geometryParse_spec.2.2 Nat (fun bs => bs.length) [1, 0, 0, 0, 42] (by decide)

/-! ## attributeToSQL (`lib/dialects/dmdb/query-generator.js`)

External collaborators modelled at their interface boundary (they live in
the sequelize core of the repository, outside the dialect files):
the identifier escaper and the literal-value escaper. -/

/-- Modelled from the spec: `quoteIdentifier(name)` "wraps a name in the
dialect's quote character, doubling any embedded quote character". The
dmdb dialect's effective quote character is `"` (the source's
`upsertQuery` compares quoted fields against the literal `'"id"'`). -/
def quoteIdentifier (name : String) : String :=
  "\"" ++ String.mk (name.data.flatMap fun c =>
    if c = '"' then ['"', '"'] else [c]) ++ "\""

/-- Modelled from the spec: table names are quoted like identifiers
(`quoteTable` for a plain string table name). -/
def quoteTable (name : String) : String := quoteIdentifier name

/-- A literal default value as `attributeToSQL` can receive it. `now`,
`uuidv1` and `uuidv4` are the sentinel values ("unrepresentable in this
dialect") that `Utils.defaultValueSchemable` rejects. -/
inductive DefaultVal where
  | int (n : Int)
  | str (s : String)
  | boolean (b : Bool)
  | null
  | now
  | uuidv1
  | uuidv4
deriving Repr, DecidableEq

/-- Modelled from the spec: `Utils.defaultValueSchemable(value)` — false
for an absent value and for the `NOW`/`UUIDV1`/`UUIDV4` sentinels, true
otherwise. -/
def defaultValueSchemable : Option DefaultVal → Bool
  | none => false
  | some .now => false
  | some .uuidv1 => false
  | some .uuidv4 => false
  | some _ => true

/-- Modelled from the spec: `escapeValue` — "strings get quote+escape,
booleans render as dialect-native truthy/falsy literal, null renders as
the keyword NULL". Booleans render as the words `true`/`false` (which is
exactly why `attributeToSQL` special-cases BIT defaults to `1`/`0`
beforehand); the sentinels never reach this function on the DEFAULT path
and render as their names. -/
def escapeValue : DefaultVal → String
  | .int n => toString n
  | .str s => "'" ++ String.mk (s.data.flatMap fun c =>
      if c = '\'' then ['\'', '\''] else [c]) ++ "'"
  | .boolean b => if b then "true" else "false"
  | .null => "NULL"
  | .now => "NOW"
  | .uuidv1 => "UUIDV1"
  | .uuidv4 => "UUIDV4"

/-- `const typeWithoutDefault = new Set(['BLOB', 'TEXT', 'GEOMETRY', 'JSON']);` -/
def typeWithoutDefault : List String := ["BLOB", "TEXT", "GEOMETRY", "JSON"]

/-- Foreign-key reference of a column attribute
(`attribute.references.model` / `.key`). -/
structure AttrReferences where
  model : String
  key : Option String
deriving Repr, DecidableEq

/-- A column attribute as consumed by `attributeToSQL`. `typeString` is
the rendered `attribute.type.toString({ escape })`; `binary` is
`attribute.type._binary === true`. `allowNull` is `none` when the
attribute leaves nullability unspecified (the source checks
`attribute.allowNull === false`). -/
structure DmdbAttribute where
  typeString : String
  binary : Bool
  allowNull : Option Bool
  autoIncrement : Bool
  defaultValue : Option DefaultVal
  unique : Bool
  primaryKey : Bool
  comment : Option String
  first : Bool
  after : Option String
  references : Option AttrReferences
  onDelete : Option String
  onUpdate : Option String
deriving Repr, DecidableEq

/-- The `options` argument of `attributeToSQL` (used only by the
`addColumn` context of the references branch). -/
structure AttrToSqlOptions where
  context : Option String
  tableName : Option String
  foreignKey : Option String
deriving Repr, DecidableEq

/-- JavaScript truthiness of an optional string (`undefined` and `''` are
falsy). -/
def strTruthy : Option String → Bool
  | none => false
  | some s => !s.isEmpty

/-- The BIT special case inside the DEFAULT branch:
`if (attributeString === 'BIT' && typeof attribute.defaultValue === 'boolean')
attribute.defaultValue = attribute.defaultValue ? 1 : 0;` -/
def bitAdjustDefault (attributeString : String) (v : DefaultVal) : DefaultVal :=
  if attributeString = "BIT" then
    match v with
    | .boolean b => .int (if b then 1 else 0)
    | _ => v
  else v

/-- `DmdbQueryGenerator.attributeToSQL(attribute, options)`, line by line:
type string, `NOT NULL`, `auto_increment`, the guarded `DEFAULT` clause
(suppressed for the `typeWithoutDefault` types and binary types),
`UNIQUE`, `PRIMARY KEY`, `COMMENT`, `FIRST`, `AFTER`, and the
references/foreign-key tail. -/
def dmdbAttributeToSQL (attr : DmdbAttribute)
    (options : AttrToSqlOptions) : String :=
  let attributeString := attr.typeString
  let template := attributeString
  let template :=
    if attr.allowNull = some false then template ++ " NOT NULL" else template
  let template :=
    if attr.autoIncrement then template ++ " auto_increment" else template
  -- BLOB/TEXT/GEOMETRY/JSON cannot have a default value
  let template :=
    if !typeWithoutDefault.contains attributeString
        && !attr.binary
        && defaultValueSchemable attr.defaultValue then
      match attr.defaultValue with
      | some v =>
        template ++ " DEFAULT " ++ escapeValue (bitAdjustDefault attributeString v)
      | none => template
    else template
  let template := if attr.unique then template ++ " UNIQUE" else template
  let template := if attr.primaryKey then template ++ " PRIMARY KEY" else template
  let template :=
    match attr.comment with
    | some c => if !c.isEmpty then template ++ " COMMENT " ++ escapeValue (.str c) else template
    | none => template
  let template := if attr.first then template ++ " FIRST" else template
  let template :=
    match attr.after with
    | some a => if !a.isEmpty then template ++ " AFTER " ++ quoteIdentifier a else template
    | none => template
  match attr.references with
  | some refs =>
    let template :=
      if options.context = some "addColumn" && strTruthy options.foreignKey then
        let attrName := quoteIdentifier (options.foreignKey.getD "")
        let fkName := quoteIdentifier
          ((options.tableName.getD "undefined") ++ "_" ++ attrName ++ "_foreign_idx")
        template ++ ", ADD CONSTRAINT " ++ fkName ++ " FOREIGN KEY (" ++ attrName ++ ")"
      else template
    let template := template ++ " REFERENCES " ++ quoteTable refs.model
    let template :=
      match refs.key with
      | some k => if !k.isEmpty then template ++ " (" ++ quoteIdentifier k ++ ")"
          else template ++ " (" ++ quoteIdentifier "id" ++ ")"
      | none => template ++ " (" ++ quoteIdentifier "id" ++ ")"
    let template :=
      match attr.onDelete with
      | some od => if !od.isEmpty then template ++ " ON DELETE " ++ od.toUpper else template
      | none => template
    match attr.onUpdate with
    | some ou => if !ou.isEmpty then template ++ " ON UPDATE " ++ ou.toUpper else template
    | none => template
  | none => template

/-- **C7**. For a column attr whose rendered type string is `BLOB`,
`TEXT`, `GEOMETRY` or `JSON`, the column definition produced by
`attributeToSQL` carries no DEFAULT clause: the output is identical to
the output for the same attr with no default value supplied. -/
theorem dmdbAttributeToSQL_no_default (attr : DmdbAttribute)
    (options : AttrToSqlOptions)
    (h : attr.typeString ∈ typeWithoutDefault) :
    dmdbAttributeToSQL attr options =
      dmdbAttributeToSQL { attr with defaultValue := none } options := by
  have hc : typeWithoutDefault.contains attr.typeString = true := by
    simpa using h
  simp only [dmdbAttributeToSQL, hc, Bool.not_true, Bool.false_and,
    Bool.false_eq_true, if_false, defaultValueSchemable]

/-- Witness for C7: a TEXT column with a supplied literal default renders
without a DEFAULT clause, via `dmdbAttributeToSQL_no_default`. -/
theorem dmdbAttributeToSQL_no_default_witness :
    dmdbAttributeToSQL
      { typeString := "TEXT", binary := false, allowNull := some false,
        autoIncrement := false, defaultValue := some (.str "x"), unique := false,
        primaryKey := false, comment := none, first := false, after := none,
        references := none, onDelete := none, onUpdate := none }
      ⟨none, none, none⟩ = "TEXT NOT NULL" := by
  rw [dmdbAttributeToSQL_no_default
    { typeString := "TEXT", binary := false, allowNull := some false,
      autoIncrement := false, defaultValue := some (.str "x"), unique := false,
      primaryKey := false, comment := none, first := false, after := none,
      references := none, onDelete := none, onUpdate := none }
    ⟨none, none, none⟩ (by decide)]
  rfl

/-! ## upsertQuery (`lib/dialects/dmdb/query-generator.js`)

`upsertQuery(tableName, insertValues, updateValues, where, model, options)`
synthesizes a `MERGE INTO … WHEN MATCHED THEN UPDATE … WHEN NOT MATCHED
THEN INSERT …` statement. The string assembly is embedded over `Str`
(character lists). Value rendering (`this.escape` / `this.format` /
`bindParam`) happens in the sequelize core outside the dialect files; the
embedding therefore takes `insertValues` with already-rendered value text,
after the `Utils.removeNullValuesFromHash` preprocessing (which only drops
entries, so the embedded quantification over arbitrary hashes is
unaffected). -/

/-- One entry of `model.rawAttributes`: the `autoIncrement` flag and the
optional `field` alias, the only parts `upsertQuery` reads. -/
structure RawAttr where
  autoIncrement : Bool
  field : Option Str
deriving Repr, DecidableEq

/-- The `modelAttributeMap` construction:

```js
_.each(model.rawAttributes, (attribute, key) => {
  modelAttributeMap[key] = attribute;
  if (attribute.field) {
    modelAttributeMap[attribute.field] = attribute;
  }
});
```

Expanded to (key, attribute) pairs; a later assignment to the same key
overwrites an earlier one, so lookup takes the last matching pair. -/
def modelAttributePairs (raw : List (Str × RawAttr)) : List (Str × RawAttr) :=
  raw.flatMap fun p =>
    (p.1, p.2) :: (match p.2.field with
      | some f => [(f, p.2)]
      | none => [])

/-- `modelAttributeMap[key]` lookup (last write wins). -/
def modelAttributeLookup (raw : List (Str × RawAttr)) (key : Str) : Option RawAttr :=
  ((modelAttributePairs raw).reverse.find? fun p => p.1 = key).map (·.2)

/-- Quoting of one field name over `Str` (the `Modelled from the spec`
escaper `quoteIdentifier`, on character lists). -/
def quoteIdentifierL (name : Str) : Str :=
  '"' :: (name.flatMap fun c => if c = '"' then ['"', '"'] else [c]) ++ ['"']

/-- `identityInsert` is set while walking `insertValues`: it becomes true
iff some inserted key maps to a model attribute with
`autoIncrement === true`. -/
def upsertIdentityInsert (raw : List (Str × RawAttr))
    (insertValues : List (Str × Str)) : Bool :=
  insertValues.any fun p =>
    match modelAttributeLookup raw p.1 with
    | some a => a.autoIncrement
    | none => false

/-- The quoted `fields` list built from `insertValues`
(`fields.push(this.quoteIdentifier(key))`). -/
def upsertFields (insertValues : List (Str × Str)) : List Str :=
  insertValues.map fun p => quoteIdentifierL p.1

/-- The candidate-row projection:

```js
let selectQuery = 'SELECT ';
fields.forEach((field, idx) => {
  if (idx === 0 && field !== '"id"') {
    selectQuery += 'NULL "id", ';
  }
  if (idx > 0) {
    selectQuery += ', ';
  }
  selectQuery += `${values[idx]} ${field}`;
});
selectQuery += ' FROM DUAL';
``` -/
def upsertSelectAux : List (Str × Str) → Nat → Str
  | [], _ => []
  | (field, value) :: rest, idx =>
    (if idx = 0 ∧ field ≠ "\"id\"".data then "NULL \"id\", ".data else []) ++
    (if idx > 0 then ", ".data else []) ++
    value ++ ' ' :: field ++ upsertSelectAux rest (idx + 1)

/-- `SELECT … FROM DUAL` assembled from fields and rendered values. -/
def upsertSelectQuery (fields values : List Str) : Str :=
  "SELECT ".data ++ upsertSelectAux (List.zip fields values) 0 ++ " FROM DUAL".data

/-- One `T1."key"=T2."key"` assignment of the update clause. -/
def upsertAssign (key : Str) : Str :=
  "T1.\"".data ++ key ++ "\"=T2.\"".data ++ key ++ ['"']

/-- The `WHEN MATCHED` clause body:

```js
let updateQuery = 'UPDATE SET ';
let updateQueryAddedFields = false;
Object.keys(updateValues).forEach((key, idx) => {
  if (identityInsert && idx === 0 || key === 'id') {
    // Skip the first field if we're doing an update on an identity column
  } else {
    if (updateQueryAddedFields) {
      updateQuery += ', ';
    }
    updateQuery += `T1."${key}"=T2."${key}"`;
    updateQueryAddedFields = true;
  }
});
``` -/
def upsertUpdateAux (identityInsert : Bool) : List Str → Nat → Bool → Str
  | [], _, _ => []
  | key :: keys, idx, added =>
    if (identityInsert ∧ idx = 0) ∨ key = "id".data then
      upsertUpdateAux identityInsert keys (idx + 1) added
    else
      (if added then ", ".data else []) ++ upsertAssign key ++
        upsertUpdateAux identityInsert keys (idx + 1) true

/-- The full `UPDATE SET …` clause of the generated MERGE, as a function
of the model, the insert hash (which determines `identityInsert`) and the
update hash (whose keys are enumerated). -/
def dmdbUpsertUpdateClause (raw : List (Str × RawAttr))
    (insertValues updateValues : List (Str × Str)) : Str :=
  "UPDATE SET ".data ++
    upsertUpdateAux (upsertIdentityInsert raw insertValues)
      (updateValues.map (·.1)) 0 false

/-- The `INSERT (…)` key list (skips index 0 under `identityInsert`). -/
def upsertInsertKeysAux (identityInsert : Bool) : List Str → Nat → Bool → Str
  | [], _, _ => []
  | field :: fields, idx, added =>
    if identityInsert ∧ idx = 0 then
      upsertInsertKeysAux identityInsert fields (idx + 1) added
    else
      (if added then ", ".data else []) ++ field ++
        upsertInsertKeysAux identityInsert fields (idx + 1) true

/-- The `VALUES (…)` list (`T2.field`, skips index 0 under
`identityInsert`). -/
def upsertInsertValuesAux (identityInsert : Bool) : List Str → Nat → Bool → Str
  | [], _, _ => []
  | field :: fields, idx, added =>
    if identityInsert ∧ idx = 0 then
      upsertInsertValuesAux identityInsert fields (idx + 1) added
    else
      (if added then ", ".data else []) ++ "T2.".data ++ field ++
        upsertInsertValuesAux identityInsert fields (idx + 1) true

/-- The `WHEN NOT MATCHED THEN INSERT (…) VALUES (…)` clause body. -/
def dmdbUpsertInsertClause (identityInsert : Bool) (fields : List Str) : Str :=
  "INSERT (".data ++ upsertInsertKeysAux identityInsert fields 0 false ++
    ") VALUES (".data ++ upsertInsertValuesAux identityInsert fields 0 false ++
    [')']

/-- `upsertQuery`'s final MERGE statement (the template literal of the
source, including its embedded newlines and indentation). -/
def dmdbUpsertQuery (tableName : Str) (raw : List (Str × RawAttr))
    (insertValues updateValues : List (Str × Str)) : Str :=
  let quotedTable := quoteIdentifierL tableName
  let fields := upsertFields insertValues
  let values := insertValues.map (·.2)
  let identityInsert := upsertIdentityInsert raw insertValues
  let selectQuery := upsertSelectQuery fields values
  let updateQuery := dmdbUpsertUpdateClause raw insertValues updateValues
  let insertQuery := dmdbUpsertInsertClause identityInsert fields
  "MERGE INTO ".data ++ quotedTable ++ " AS T1 USING (".data ++ selectQuery ++
    ") AS T2\n      ON T1.\"id\" = T2.\"id\" \n      WHEN MATCHED THEN ".data ++
    updateQuery ++ "\n      WHEN NOT MATCHED THEN ".data ++ insertQuery ++ [';']

/-! ### Theorems: upsert update clause (C1) -/

/-- Comma-join of a list of fragments. -/
def joinComma : List Str → Str
  | [] => []
  | [x] => x
  | x :: y :: xs => x ++ ", ".data ++ joinComma (y :: xs)

/-- The keys that actually receive a `T1."k"=T2."k"` assignment in the
generated update clause: of the update hash's keys, the first key is
dropped whenever `identityInsert` is set, and every key literally equal to
`id` is dropped. -/
def upsertUpdateKeptKeys (identityInsert : Bool) : List Str → List Str
  | [] => []
  | k :: ks =>
    (if identityInsert ∨ k = "id".data then [] else [k]) ++
      ks.filter (fun k => k ≠ "id".data)

theorem upsertUpdateAux_succ (identityInsert : Bool) :
    ∀ (ks : List Str) (idx : Nat) (added : Bool),
      upsertUpdateAux identityInsert ks (idx + 1) added =
        (if added ∧ ks.filter (fun k => k ≠ "id".data) ≠ [] then ", ".data else []) ++
          joinComma ((ks.filter (fun k => k ≠ "id".data)).map upsertAssign) := by
  intro ks
  induction ks with
  | nil => intro idx added; simp [upsertUpdateAux, joinComma]
  | cons k ks ih =>
    intro idx added
    by_cases hk : k = "id".data
    · simp only [upsertUpdateAux]
      rw [if_pos (Or.inr hk), ih (idx + 1) added]
      simp [List.filter_cons, hk]
    · have hcond : ¬((identityInsert = true ∧ idx + 1 = 0) ∨ k = "id".data) := by
        rintro (⟨_, h0⟩ | h)
        · omega
        · exact hk h
      simp only [upsertUpdateAux]
      rw [if_neg hcond, ih (idx + 1) true]
      rw [List.filter_cons_of_pos (by simp [hk])]
      simp only [List.map_cons]
      cases hf : ks.filter (fun k => k ≠ "id".data) with
      | nil => cases added <;> simp [joinComma, hf]
      | cons a as => cases added <;> simp [joinComma, hf, List.append_assoc]

/-- **C1 (amended)**. The `WHEN MATCHED THEN UPDATE SET` clause of the
generated MERGE consists of the assignments `T1."k"=T2."k"` for exactly
the kept update keys, in hash order: the first update key is skipped when
`identityInsert` holds (i.e. some inserted key maps to an auto-increment
model attribute), and any key literally named `id` is skipped. In
particular a key named `id` is never assigned, but an identity column
under any other name is only protected when it happens to be the first
update key of an identity insert. -/
theorem dmdbUpsertUpdateClause_spec (raw : List (Str × RawAttr))
    (insertValues updateValues : List (Str × Str)) :
    dmdbUpsertUpdateClause raw insertValues updateValues =
      "UPDATE SET ".data ++
        joinComma ((upsertUpdateKeptKeys (upsertIdentityInsert raw insertValues)
          (updateValues.map (·.1))).map upsertAssign) ∧
    "id".data ∉ upsertUpdateKeptKeys (upsertIdentityInsert raw insertValues)
      (updateValues.map (·.1)) := by
  constructor
  · unfold dmdbUpsertUpdateClause
    congr 1
    cases hks : updateValues.map (·.1) with
    | nil => simp [upsertUpdateAux, upsertUpdateKeptKeys, joinComma]
    | cons k ks =>
      simp only [upsertUpdateAux, upsertUpdateKeptKeys]
      by_cases hii : upsertIdentityInsert raw insertValues = true
      · rw [if_pos (Or.inl ⟨hii, by trivial⟩), upsertUpdateAux_succ]
        simp [hii, joinComma]
      · by_cases hk : k = "id".data
        · rw [if_pos (Or.inr hk), upsertUpdateAux_succ]
          simp [hk, joinComma]
        · rw [if_neg (by
            rintro (⟨h, _⟩ | h)
            exacts [hii h, hk h]), upsertUpdateAux_succ]
          have hif : (if upsertIdentityInsert raw insertValues = true ∨ k = "id".data
              then ([] : List Str) else [k]) = [k] := by
            rw [if_neg]
            rintro (h | h)
            exacts [hii h, hk h]
          rw [hif]
          simp only [List.singleton_append, List.map_cons]
          cases hf : ks.filter (fun k => k ≠ "id".data) with
          | nil => simp [joinComma, hf]
          | cons a as => simp [joinComma, hf, List.append_assoc]
  · cases hks : updateValues.map (·.1) with
    | nil => simp [upsertUpdateKeptKeys]
    | cons k ks =>
      simp only [upsertUpdateKeptKeys, List.mem_append]
      rintro (h | h)
      · split at h <;> simp_all
      · have := List.of_mem_filter h
        simp at this

/-- **C1 (counterexample)**. A table whose identity (auto-increment)
primary key is named `uid` rather than `id`: upserting
`{uid: 1, name: 'john'}` with update hash `{name: 'john', uid: 1}`
produces a `WHEN MATCHED` clause that assigns the identity column
(`T1."uid"=T2."uid"`) and omits the non-identity field `name` — the
opposite of the claimed exclusion, because the source skips by position
(`idx === 0`) and by the literal name `id` only. -/
theorem dmdbUpsert_identity_update_counterexample :
    dmdbUpsertUpdateClause
        [("uid".data, ⟨true, none⟩), ("name".data, ⟨false, none⟩)]
        [("uid".data, "1".data), ("name".data, "'john'".data)]
        [("name".data, "'john'".data), ("uid".data, "1".data)] =
      "UPDATE SET T1.\"uid\"=T2.\"uid\"".data ∧
    hasSubstring "T1.\"uid\"=T2.\"uid\"".data
      (dmdbUpsertUpdateClause
        [("uid".data, ⟨true, none⟩), ("name".data, ⟨false, none⟩)]
        [("uid".data, "1".data), ("name".data, "'john'".data)]
        [("name".data, "'john'".data), ("uid".data, "1".data)]) = true ∧
    hasSubstring "name".data
      (dmdbUpsertUpdateClause
        [("uid".data, ⟨true, none⟩), ("name".data, ⟨false, none⟩)]
        [("uid".data, "1".data), ("name".data, "'john'".data)]
        [("name".data, "'john'".data), ("uid".data, "1".data)]) = false := by
  refine ⟨by decide, by decide, by decide⟩

/-! ## Query.formatError (`lib/dialects/dmdb/query.js`)

```js
formatError(err) {
  const errCode = err.errno || err.code;
  switch (errCode) {
    case ER_DUP_ENTRY: {
      const match = err.message.match(/Duplicate entry '([\s\S]*)' for key '?((.|\s)*?)'?$/);
      let fields = {};
      let message = 'Validation error';
      const values = match ? match[1].split('-') : void 0;
      const fieldKey = match ? match[2].split('.').pop() : void 0;
      const fieldVal = match ? match[1] : void 0;
      const uniqueKey = this.model && this.model.uniqueKeys[fieldKey];
      if (uniqueKey) {
        if (uniqueKey.msg) { message = uniqueKey.msg; }
        fields = _.zipObject(uniqueKey.fields, values);
      } else {
        fields[fieldKey] = fieldVal;
      }
      ... return new sequelizeErrors.UniqueConstraintError({ message, errors, parent: err, fields, ... });
    }
    case ER_ROW_IS_REFERENCED:
    case ER_NO_REFERENCED_ROW: { ... ForeignKeyConstraintError ... }
    default:
      return new sequelizeErrors.DatabaseError(err, ...);
  }
}
``` -/

/-- `pat.isPrefixOf (l.drop i)`: the literal `pat` occurs in `l` at
position `i`. -/
def patAt (pat l : Str) (i : Nat) : Bool := pat.isPrefixOf (l.drop i)

/-- Embedding of the unanchored match of
`/Duplicate entry '([\s\S]*)' for key '?((.|\s)*?)'?$/` against `msg`,
returning (group 1, group 2) on success.

Match semantics derivation: the pattern matches iff the literal
`Duplicate entry '` occurs at some position `i` and the literal
`' for key ` occurs at some `j ≥ i + 17` (the trailing `'?((.|\s)*?)'?$`
matches any remainder). The regex engine takes the leftmost such `i`;
group 1 is greedy, so `j` is the *last* such occurrence; after
`' for key `, the optional quote consumes a leading `'` if present, the
lazy group 2 then extends to the end minus an optional single trailing
`'` consumed by the final `'?`. -/
def matchDupEntry (msg : Str) : Option (Str × Str) :=
  let lit1 := "Duplicate entry '".data
  let lit2 := "' for key ".data
  let positions := List.range (msg.length + 1)
  let lit2After := fun i => positions.filter fun j => decide (i + 17 ≤ j) && patAt lit2 msg j
  match positions.find? fun i => patAt lit1 msg i && !(lit2After i).isEmpty with
  | none => none
  | some i =>
    let j := ((lit2After i).getLast?).getD 0
    let group1 := (msg.take j).drop (i + 17)
    let r := msg.drop (j + 10)
    let r1 := match r with
      | '\'' :: rest => rest
      | _ => r
    let group2 := if r1.getLast? = some '\'' then r1.dropLast else r1
    some (group1, group2)

/-- Modelled from the spec: the dialect's duplicate-entry error code
(`ER_DUP_ENTRY`). The constant is referenced by `query.js` but its
declaration lives outside the dialect sources; the repository's unit test
(`test/unit/dialects/dmdb/errors.test.js`) drives `formatError` into this
case with code `1062`. -/
def ER_DUP_ENTRY : Int := 1062

/-- Modelled from the spec: the parent-row-referenced foreign-key error
code; the repository's unit test uses `1451`. -/
def ER_ROW_IS_REFERENCED : Int := 1451

/-- Modelled from the spec: the missing-referenced-row foreign-key error
code (`1452`, the companion of `ER_ROW_IS_REFERENCED`). -/
def ER_NO_REFERENCED_ROW : Int := 1452

/-- One named unique key of `this.model.uniqueKeys`: its field list and
optional custom message. -/
structure ModelUniqueKey where
  fields : List Str
  msg : Option Str
deriving Repr, DecidableEq

/-- The part of `this.model` that `formatError` reads. -/
structure QueryModelInfo where
  uniqueKeys : List (Str × ModelUniqueKey)
deriving Repr, DecidableEq

/-- A driver execution error as observed by `formatError`: numeric
`errno`/`code` (absent modelled as `none`), the message text, and an
opaque payload identifying the original error object. -/
structure DmdbDriverError where
  errno : Option Int
  code : Option Int
  message : Str
  payload : Nat
deriving Repr, DecidableEq

/-- `const errCode = err.errno || err.code;` with JavaScript falsiness
(`0`, `null` and `undefined` fall through to `err.code`). -/
def errCodeOf (err : DmdbDriverError) : Option Int :=
  match err.errno with
  | some n => if n ≠ 0 then some n else err.code
  | none => err.code

/-- `_.zipObject(keys, values)`: pairs keys with values positionally;
missing values become `undefined` (`none`). Keys are `Option Str` so the
one `fields[undefined]` case of the source is representable. -/
def zipObject (keys values : List Str) : List (Option Str × Option Str) :=
  keys.enum.map fun (p : Nat × Str) => (some p.2, values.get? p.1)

/-- The structured query errors `formatError` can produce. The
foreign-key branch (codes `ER_ROW_IS_REFERENCED`/`ER_NO_REFERENCED_ROW`)
keeps only its parent here; no claim concerns its message parsing. -/
inductive SequelizeQueryError where
  | uniqueConstraint (message : Str) (fields : List (Option Str × Option Str))
      (parent : DmdbDriverError)
  | foreignKeyConstraint (parent : DmdbDriverError)
  | databaseError (parent : DmdbDriverError)
deriving Repr, DecidableEq

/-- `Query.formatError(err)` with `this.model` as first argument. -/
def dmdbFormatError (model : Option QueryModelInfo) (err : DmdbDriverError) :
    SequelizeQueryError :=
  match errCodeOf err with
  | some n =>
    if n = ER_DUP_ENTRY then
      match matchDupEntry err.message with
      | some (g1, g2) =>
        let values := splitOnChar '-' g1
        let fieldKey := (splitOnChar '.' g2).getLast?
        let uniqueKey : Option ModelUniqueKey :=
          match model, fieldKey with
          | some m, some fk =>
            (m.uniqueKeys.find? fun (p : Str × ModelUniqueKey) => p.1 = fk).map (·.2)
          | _, _ => none
        match uniqueKey with
        | some uk =>
          .uniqueConstraint (uk.msg.getD "Validation error".data)
            (zipObject uk.fields values) err
        | none => .uniqueConstraint "Validation error".data [(fieldKey, some g1)] err
      | none => .uniqueConstraint "Validation error".data [(none, none)] err
    else if n = ER_ROW_IS_REFERENCED ∨ n = ER_NO_REFERENCED_ROW then
      .foreignKeyConstraint err
    else .databaseError err
  | none => .databaseError err

/-- **C2**. A duplicate-entry driver error with message
`Duplicate entry 'john-7' for key 'users.name_secret'` on a model whose
unique key `name_secret` covers `[name, secretValue]` is classified into
a UniqueConstraintError with fields `{name: "john", secretValue: "7"}`
whose parent is the original driver error. -/
theorem dmdbFormatError_dup_entry_scenario :
    dmdbFormatError
        (some ⟨[("name_secret".data,
          ⟨["name".data, "secretValue".data], none⟩)]⟩)
        ⟨none, some 1062,
          "Duplicate entry 'john-7' for key 'users.name_secret'".data, 5⟩ =
      .uniqueConstraint "Validation error".data
        [(some "name".data, some "john".data),
         (some "secretValue".data, some "7".data)]
        ⟨none, some 1062,
          "Duplicate entry 'john-7' for key 'users.name_secret'".data, 5⟩ := by
  decide

/-! ## Query.run boolean rewrite (`lib/dialects/dmdb/query.js`)

```js
run(sql, parameters) {
  // fix: replace true with 1, false with 0
  if (this.isSelectQuery() && (sql.includes(' = true') || sql.includes(' = false'))) {
    sql = sql.replace(/ = true/g, ' = 1').replace(/ = false/g, ' = 0');
  }
  this.sql = sql;
  ...
}
``` -/

/-- Global replacement of a fixed pattern, the semantics of
`String.prototype.replace` with a `/g` literal-pattern regex: scan left to
right; at a match emit the replacement and resume after the matched text
(matches never overlap); otherwise emit the character and advance. The
fuel argument only bounds recursion; `l.length` steps always suffice
because every step consumes at least one character of a nonempty list. -/
def repFuel (pat rep : Str) : Nat → Str → Str
  | 0, l => l
  | _ + 1, [] => []
  | f + 1, c :: cs =>
    if pat.isPrefixOf (c :: cs) then
      rep ++ repFuel pat rep f ((c :: cs).drop pat.length)
    else c :: repFuel pat rep f cs

/-- `sql.replace(pattern-literal/g, rep)`. -/
def jsReplaceAll (pat rep l : Str) : Str := repFuel pat rep l.length l

/-- The boolean-literal rewrite `Query.run` applies to the SQL text before
handing it to the driver: for a SELECT query containing ` = true` or
` = false` it replaces every occurrence of ` = true` by ` = 1` and then
every occurrence of ` = false` by ` = 0`; any other SQL text is passed
through unchanged. -/
def dmdbRunRewriteSql (isSelect : Bool) (sql : Str) : Str :=
  if isSelect ∧ (hasSubstring " = true".data sql ∨ hasSubstring " = false".data sql) then
    jsReplaceAll " = false".data " = 0".data (jsReplaceAll " = true".data " = 1".data sql)
  else sql

/-! ### Replacement theory: after a global replace of `q` by `r`, no
occurrence of a pattern `p` remains, provided (a) every occurrence of `p`
in the input was an occurrence of `q` (either `p = q`, or the input was
already `p`-free), (b) `p` is incomparable with `r` at every suffix
alignment, so replacements can neither contain nor straddle a `p`
occurrence. -/

theorem prefix_of_append_comparable {a b l : Str} (h : a <+: b ++ l) :
    a <+: b ∨ b <+: a :=
  List.prefix_or_prefix_of_prefix h (List.prefix_append b l)

theorem hasSubstring_cons_false {pat : Str} {c : Char} {cs : Str} :
    hasSubstring pat (c :: cs) = false ↔
      pat.isPrefixOf (c :: cs) = false ∧ hasSubstring pat cs = false := by
  simp [hasSubstring]

theorem hasSubstring_false_of_suffix {pat l l' : Str}
    (h : hasSubstring pat l = false) (hs : l' <:+ l) :
    hasSubstring pat l' = false := by
  obtain ⟨u, rfl⟩ := hs
  induction u with
  | nil => exact h
  | cons x u ih =>
    exact ih (hasSubstring_cons_false.mp h).2

/-- No occurrence of `pat` begins inside the appended block `a` when `a`
is shorter than `pat` and no nonempty suffix of `a` begins `pat`. -/
theorem hasSubstring_append_false {pat : Str} :
    ∀ a R : Str, a.length < pat.length →
      (∀ s, s ≠ [] → s <:+ a → ¬ s <+: pat) →
      hasSubstring pat R = false →
      hasSubstring pat (a ++ R) = false := by
  intro a
  induction a with
  | nil => intro R _ _ hR; simpa using hR
  | cons x a' ih =>
    intro R hlen hcond hR
    rw [List.cons_append, hasSubstring_cons_false]
    constructor
    · rw [← Bool.not_eq_true]
      intro hpre
      rw [List.isPrefixOf_iff_prefix] at hpre
      rw [← List.cons_append] at hpre
      rcases prefix_of_append_comparable hpre with h | h
      · have h1 := h.length_le
        simp only [List.length_cons] at h1 hlen
        omega
      · exact hcond (x :: a') (by simp) List.suffix_rfl h
    · exact ih R (by simp at hlen ⊢; omega)
        (fun s hs hsuf => hcond s hs (hsuf.trans (List.suffix_cons x a'))) hR

/-- Prefix pullback through a global replace: a nonempty suffix `t` of
the searched pattern `p` that begins the output also begins the input,
provided `p`'s suffixes are prefix-incomparable with the replacement
`r`. -/
theorem repFuel_prefix_pullback {p q r : Str}
    (HA : ∀ t, t ≠ [] → t <:+ p → ¬ t <+: r ∧ ¬ r <+: t) :
    ∀ (f : Nat) (l t : Str), t ≠ [] → t <:+ p →
      t <+: repFuel q r f l → t <+: l := by
  intro f
  induction f with
  | zero => intro l t _ _ hpre; simpa [repFuel] using hpre
  | succ f ih =>
    intro l t ht hsuf hpre
    match l with
    | [] => simpa [repFuel] using hpre
    | c :: cs =>
      by_cases hm : q.isPrefixOf (c :: cs) = true
      · rw [repFuel, if_pos hm] at hpre
        rcases prefix_of_append_comparable hpre with h | h
        · exact absurd h (HA t ht hsuf).1
        · exact absurd h (HA t ht hsuf).2
      · rw [repFuel, if_neg (by simpa using hm)] at hpre
        match t, ht with
        | t0 :: t', _ =>
          rw [List.cons_prefix_cons] at hpre
          obtain ⟨rfl, hp'⟩ := hpre
          cases t' with
          | nil => exact List.cons_prefix_cons.mpr ⟨rfl, List.nil_prefix⟩
          | cons a as =>
            have hsuf' : (a :: as) <:+ p := (List.suffix_cons t0 (a :: as)).trans hsuf
            have := ih cs (a :: as) (by simp) hsuf' hp'
            exact List.cons_prefix_cons.mpr ⟨rfl, this⟩

/-- After globally replacing `q` by `r`, no occurrence of `p` remains;
the hypotheses make `p`-occurrences enter only through `q`-matches and
make `r` unable to contain or seed one. -/
theorem repFuel_no_occurrence {p q r : Str}
    (Hp : p ≠ []) (Hq : q ≠ [])
    (HA : ∀ t, t ≠ [] → t <:+ p → ¬ t <+: r ∧ ¬ r <+: t)
    (HC : ∀ s, s ≠ [] → s <:+ r → ¬ s <+: p)
    (HD : r.length < p.length) :
    ∀ (f : Nat) (l : Str), l.length ≤ f →
      (p = q ∨ hasSubstring p l = false) →
      hasSubstring p (repFuel q r f l) = false := by
  intro f
  induction f with
  | zero =>
    intro l hl _
    have : l = [] := List.eq_nil_of_length_eq_zero (Nat.le_zero.mp hl)
    subst this
    simpa [repFuel, hasSubstring, List.isEmpty_iff] using Hp
  | succ f ih =>
    intro l hl hB
    match l with
    | [] => simpa [repFuel, hasSubstring, List.isEmpty_iff] using Hp
    | c :: cs =>
      by_cases hm : q.isPrefixOf (c :: cs) = true
      · rw [repFuel, if_pos hm]
        apply hasSubstring_append_false r _ HD HC
        apply ih
        · have : q.length ≥ 1 := by
            cases q with
            | nil => exact absurd rfl Hq
            | cons _ _ => simp
          simp only [List.length_drop, List.length_cons] at *
          omega
        · rcases hB with hB | hB
          · exact Or.inl hB
          · exact Or.inr (hasSubstring_false_of_suffix hB (List.drop_suffix _ _))
      · rw [repFuel, if_neg (by simpa using hm)]
        rw [hasSubstring_cons_false]
        have hnoocc : ¬ p <+: (c :: cs) := by
          rcases hB with rfl | hB
          · rw [← List.isPrefixOf_iff_prefix]; simpa using hm
          · rw [← List.isPrefixOf_iff_prefix]
            have := (hasSubstring_cons_false.mp hB).1
            simp [this]
        constructor
        · rw [← Bool.not_eq_true]
          intro hpre
          rw [List.isPrefixOf_iff_prefix] at hpre
          match p, Hp with
          | p0 :: pt, _ =>
            rw [List.cons_prefix_cons] at hpre
            obtain ⟨rfl, hp'⟩ := hpre
            cases pt with
            | nil => exact hnoocc (List.cons_prefix_cons.mpr ⟨rfl, List.nil_prefix⟩)
            | cons a as =>
              have hsuf : (a :: as) <:+ (p0 :: a :: as) := List.suffix_cons p0 (a :: as)
              have := repFuel_prefix_pullback HA f cs (a :: as) (by simp) hsuf hp'
              exact hnoocc (List.cons_prefix_cons.mpr ⟨rfl, this⟩)
        · apply ih cs (by simpa using Nat.le_of_succ_le_succ (by simpa using hl))
          rcases hB with hB | hB
          · exact Or.inl hB
          · exact Or.inr (hasSubstring_cons_false.mp hB).2

/-- Reduces the suffix-incomparability hypothesis of
`repFuel_no_occurrence` to a decidable check over `p.tails`. -/
theorem suffix_incomparable_of_all {p r : Str}
    (h : p.tails.all (fun t =>
      t.isEmpty || (!t.isPrefixOf r && !r.isPrefixOf t)) = true) :
    ∀ t, t ≠ [] → t <:+ p → ¬ t <+: r ∧ ¬ r <+: t := by
  intro t ht hsuf
  have h2 := List.all_eq_true.mp h t ((List.mem_tails t p).mpr hsuf)
  cases t with
  | nil => exact absurd rfl ht
  | cons a as =>
    simp only [List.isEmpty_cons, Bool.false_or, Bool.and_eq_true,
      Bool.not_eq_true'] at h2
    constructor
    · intro hp
      rw [← List.isPrefixOf_iff_prefix] at hp
      rw [h2.1] at hp
      cases hp
    · intro hp
      rw [← List.isPrefixOf_iff_prefix] at hp
      rw [h2.2] at hp
      cases hp

/-- Reduces the no-replacement-suffix-begins-pattern hypothesis of
`repFuel_no_occurrence` to a decidable check over `r.tails`. -/
theorem suffix_not_begins_of_all {r p : Str}
    (h : r.tails.all (fun s => s.isEmpty || !s.isPrefixOf p) = true) :
    ∀ s, s ≠ [] → s <:+ r → ¬ s <+: p := by
  intro s hs hsuf
  have h2 := List.all_eq_true.mp h s ((List.mem_tails s r).mpr hsuf)
  cases s with
  | nil => exact absurd rfl hs
  | cons a as =>
    simp only [List.isEmpty_cons, Bool.false_or, Bool.not_eq_true'] at h2
    intro hp
    rw [← List.isPrefixOf_iff_prefix] at hp
    rw [h2] at hp
    cases hp

/-- **C10**. `Query.run` sends non-SELECT SQL text to the driver
unmodified; for SELECT queries it rewrites every occurrence of ` = true`
to ` = 1` and every occurrence of ` = false` to ` = 0` — the sent text
contains no occurrence of either pattern, wherever it appeared (the
rewrite is plain text substitution, so occurrences inside quoted string
literals are rewritten too, as the concrete example shows). -/
theorem dmdbRunRewriteSql_spec :
    (∀ sql : Str, dmdbRunRewriteSql false sql = sql) ∧
    (∀ sql : Str,
      hasSubstring " = true".data (dmdbRunRewriteSql true sql) = false ∧
      hasSubstring " = false".data (dmdbRunRewriteSql true sql) = false) ∧
    dmdbRunRewriteSql true
        "SELECT * FROM t WHERE a = true AND note = 'x = false'".data =
      "SELECT * FROM t WHERE a = 1 AND note = 'x = 0'".data := by
  refine ⟨fun sql => by simp [dmdbRunRewriteSql], fun sql => ?_, by decide⟩
  by_cases hc : hasSubstring " = true".data sql = true ∨
      hasSubstring " = false".data sql = true
  · have hrw : dmdbRunRewriteSql true sql =
        jsReplaceAll " = false".data " = 0".data
          (jsReplaceAll " = true".data " = 1".data sql) := by
      simp [dmdbRunRewriteSql, hc]
    rw [hrw]
    have inner1 : hasSubstring " = true".data
        (jsReplaceAll " = true".data " = 1".data sql) = false := by
      apply repFuel_no_occurrence (by decide) (by decide)
        (suffix_incomparable_of_all (by decide))
        (suffix_not_begins_of_all (by decide)) (by decide)
        sql.length sql le_rfl (Or.inl rfl)
    constructor
    · apply repFuel_no_occurrence (by decide) (by decide)
        (suffix_incomparable_of_all (by decide))
        (suffix_not_begins_of_all (by decide)) (by decide)
        _ _ le_rfl (Or.inr inner1)
    · apply repFuel_no_occurrence (by decide) (by decide)
        (suffix_incomparable_of_all (by decide))
        (suffix_not_begins_of_all (by decide)) (by decide)
        _ _ le_rfl (Or.inl rfl)
  · rw [not_or] at hc
    have hrw : dmdbRunRewriteSql true sql = sql := by
      simp only [dmdbRunRewriteSql, Bool.not_eq_true] at *
      rw [if_neg]
      rintro ⟨-, h | h⟩
      · rw [hc.1] at h; cases h
      · rw [hc.2] at h; cases h
    rw [hrw]
    simp only [Bool.not_eq_true] at hc
    exact ⟨hc.1, hc.2⟩

/-! ## createTableQuery (`lib/dialects/dmdb/query-generator.js`)

```js
createTableQuery(tableName, attributes, options) {
  const primaryKeys = []; const foreignKeys = {}; const attrStr = [];
  for (const attr in attributes) {
    const dataType = attributes[attr];
    if (dataType.includes('PRIMARY KEY')) {
      primaryKeys.push(attr);
      if (dataType.includes('REFERENCES')) {
        match = dataType.match(/^(.+) (REFERENCES.*)$/);
        attrStr.push(`${attr} ${match[1].replace('PRIMARY KEY', '')}`);
        foreignKeys[attr] = match[2];
      } else {
        attrStr.push(`${attr} ${dataType.replace('PRIMARY KEY', '')}`);
      }
    } else if (dataType.includes('REFERENCES')) {
      match = dataType.match(/^(.+) (REFERENCES.*)$/);
      attrStr.push(`${attr} ${match[1]}`); foreignKeys[attr] = match[2];
    } else if (dataType.includes('JSON')) {
      attrStr.push(`${attr} ${dataType} CHECK (${attr} IS JSON(LAX))`);
    } else { attrStr.push(`${attr} ${dataType}`); }
  }
  let attributesClause = attrStr.join(', ');
  // + CONSTRAINT ... UNIQUE for custom-index uniqueKeys
  // + PRIMARY KEY (…) when pkString.length > 0
  // + FOREIGN KEY (…) clause per deferred reference
  return `CREATE TABLE IF NOT EXISTS ${table} (${attributesClause})${initialAutoIncrement};`;
}
```

(attribute names are quoted with `this.quoteIdentifier` where shown bare
above; attribute keys of the JavaScript object are pairwise distinct, the
embedding takes them as an insertion-ordered association list). -/

/-- JavaScript `String.prototype.replace` with a *string* pattern: only
the first occurrence is replaced. -/
def replaceFirst (pat rep : Str) : Str → Str
  | [] => []
  | c :: cs =>
    if pat.isPrefixOf (c :: cs) then rep ++ (c :: cs).drop pat.length
    else c :: replaceFirst pat rep cs

/-- A JavaScript line terminator (`.` in a regex without the `s` flag
cannot match it). -/
def isLineTerm (c : Char) : Bool := c = '\n' || c = '\r'

/-- Embedding of `dataType.match(/^(.+) (REFERENCES.*)$/)`.

Match semantics derivation: both groups are built from `.`, so the match
fails outright if the subject contains a line terminator; otherwise the
pattern matches iff the literal ` REFERENCES` occurs at some position
`i ≥ 1` (group 1, `(.+)`, needs at least one character); `(.+)` is
greedy, so `i` is the last such position, group 1 is everything before
the space and group 2 everything from `REFERENCES` on. -/
def refMatch (dt : Str) : Option (Str × Str) :=
  if dt.any isLineTerm then none
  else
    match ((List.range (dt.length + 1)).filter fun i =>
        decide (1 ≤ i) && patAt " REFERENCES".data dt i).getLast? with
    | some i => some (dt.take i, dt.drop (i + 1))
    | none => none

/-- The per-column outcome of `createTableQuery`'s attribute loop: the
attribute's name, whether it was pushed on `primaryKeys`, the deferred
`REFERENCES …` clause recorded in `foreignKeys` (if any), and the column
definition pushed on `attrStr`. -/
structure ColEntry where
  name : Str
  isPk : Bool
  fk : Option Str
  col : Str
deriving Repr, DecidableEq

/-- One iteration of the attribute loop. `none` models the `TypeError`
the source would hit when `dataType.match(...)` returns `null` although
the type string contains `REFERENCES`. -/
def createTableEntry (p : Str × Str) : Option ColEntry :=
  let attr := p.1
  let dataType := p.2
  if hasSubstring "PRIMARY KEY".data dataType then
    if hasSubstring "REFERENCES".data dataType then
      match refMatch dataType with
      | some m =>
        some ⟨attr, true, some m.2,
          quoteIdentifierL attr ++ ' ' :: replaceFirst "PRIMARY KEY".data [] m.1⟩
      | none => none
    else
      some ⟨attr, true, none,
        quoteIdentifierL attr ++ ' ' :: replaceFirst "PRIMARY KEY".data [] dataType⟩
  else if hasSubstring "REFERENCES".data dataType then
    match refMatch dataType with
    | some m => some ⟨attr, false, some m.2, quoteIdentifierL attr ++ ' ' :: m.1⟩
    | none => none
  else if hasSubstring "JSON".data dataType then
    some ⟨attr, false, none,
      quoteIdentifierL attr ++ ' ' :: dataType ++ " CHECK (".data ++
        quoteIdentifierL attr ++ " IS JSON(LAX))".data⟩
  else
    some ⟨attr, false, none, quoteIdentifierL attr ++ ' ' :: dataType⟩

/-- The whole attribute loop, in insertion order. -/
def createTableEntries : List (Str × Str) → Option (List ColEntry)
  | [] => some []
  | p :: rest =>
    match createTableEntry p, createTableEntries rest with
    | some e, some es => some (e :: es)
    | _, _ => none

/-- One entry of `options.uniqueKeys`: the index name under which it is
stored (`none` models a numeric array index, for which the source
generates a deterministic name), its field list, and the `customIndex`
marker. -/
structure CreateTableUniqueKey where
  name : Option Str
  fields : List Str
  customIndex : Bool
deriving Repr, DecidableEq

/-- The `options` of `createTableQuery` that shape its output. -/
structure CreateTableOptions where
  uniqueKeys : List CreateTableUniqueKey
  initialAutoIncrement : Option Str
deriving Repr, DecidableEq

/-- `'_'`-join of raw field names (`columns.fields.join('_')`). -/
def joinUnderscore : List Str → Str
  | [] => []
  | [x] => x
  | x :: y :: xs => x ++ '_' :: joinUnderscore (y :: xs)

/-- The `CONSTRAINT name UNIQUE (...)` text for one custom-index unique
key (without the leading `, ` separator). -/
def uniqueKeyClause (tableName : Str) (uk : CreateTableUniqueKey) : Str :=
  let indexName := match uk.name with
    | some n => n
    | none => "uniq_".data ++ tableName ++ '_' :: joinUnderscore uk.fields
  "CONSTRAINT ".data ++ quoteIdentifierL indexName ++ " UNIQUE (".data ++
    joinComma (uk.fields.map quoteIdentifierL) ++ [')']

/-- `createTableQuery` assembled exactly as the source does: join the
column definitions, then append (each with a `, ` separator) the
custom-index unique constraints, the composite `PRIMARY KEY` clause when
`pkString` is nonempty, and finally one `FOREIGN KEY` clause per deferred
reference. -/
def createTableQueryL (tableName : Str) (attrs : List (Str × Str))
    (options : CreateTableOptions) : Option Str :=
  match createTableEntries attrs with
  | none => none
  | some entries =>
    let primaryKeys := (entries.filter (·.isPk)).map (·.name)
    let foreignKeys := entries.filterMap fun e => e.fk.map fun f => (e.name, f)
    let attrStr := entries.map (·.col)
    let table := quoteIdentifierL tableName
    let attributesClause := joinComma attrStr
    let pkString := joinComma (primaryKeys.map quoteIdentifierL)
    let attributesClause := options.uniqueKeys.foldl
      (fun acc uk =>
        if uk.customIndex then
          acc ++ ", ".data ++ uniqueKeyClause tableName uk
        else acc)
      attributesClause
    let attributesClause :=
      if pkString.length > 0 then
        attributesClause ++ ", ".data ++ ("PRIMARY KEY (".data ++ pkString ++ [')'])
      else attributesClause
    let attributesClause := foreignKeys.foldl
      (fun acc fk =>
        acc ++ ", ".data ++
          ("FOREIGN KEY (".data ++ quoteIdentifierL fk.1 ++ [')', ' '] ++ fk.2))
      attributesClause
    let initialAutoIncrement := match options.initialAutoIncrement with
      | some v => " AUTO_INCREMENT=".data ++ v
      | none => []
    some ("CREATE TABLE IF NOT EXISTS ".data ++ table ++ " (".data ++
      attributesClause ++ [')'] ++ initialAutoIncrement ++ [';'])

/-! ### Theorems: createTableQuery clause structure (C3) -/

/-- Sequentially appending clauses with `, ` separators. -/
def appendClauses (acc : Str) (cs : List Str) : Str :=
  cs.foldl (fun a c => a ++ ", ".data ++ c) acc

theorem joinComma_append_singleton (e : Str) :
    ∀ base : Str, ∀ bs : List Str,
      joinComma ((base :: bs) ++ [e]) = joinComma (base :: bs) ++ ", ".data ++ e := by
  intro base bs
  induction bs generalizing base with
  | nil => simp [joinComma]
  | cons y ys ih =>
    have h1 : joinComma (base :: y :: (ys ++ [e])) =
        base ++ ", ".data ++ joinComma (y :: (ys ++ [e])) := rfl
    have h2 : joinComma (base :: y :: ys) =
        base ++ ", ".data ++ joinComma (y :: ys) := rfl
    have h3 := ih y
    simp only [List.cons_append] at h3 ⊢
    rw [h1, h3, h2]
    simp [List.append_assoc]

theorem appendClauses_joinComma :
    ∀ (extras : List Str) (base : List Str), base ≠ [] →
      appendClauses (joinComma base) extras = joinComma (base ++ extras) := by
  intro extras
  induction extras with
  | nil => intro base _; simp [appendClauses]
  | cons e es ih =>
    intro base hb
    match base, hb with
    | b :: bs, _ =>
      show appendClauses _ (e :: es) = _
      have step : joinComma (b :: bs) ++ ", ".data ++ e = joinComma ((b :: bs) ++ [e]) :=
        (joinComma_append_singleton e b bs).symm
      simp only [appendClauses, List.foldl_cons]
      rw [step]
      have := ih ((b :: bs) ++ [e]) (by simp)
      simp only [appendClauses] at this
      rw [this]
      simp [List.append_assoc]

theorem foldl_guard_append {α : Type} (f : α → Str) (g : α → Bool) :
    ∀ (xs : List α) (acc : Str),
      xs.foldl (fun a x => if g x then a ++ ", ".data ++ f x else a) acc =
        appendClauses acc (xs.filterMap fun x => if g x then some (f x) else none) := by
  intro xs
  induction xs with
  | nil => intro acc; simp [appendClauses]
  | cons x xs ih =>
    intro acc
    by_cases hg : g x = true
    · simp only [List.foldl_cons, hg, if_true, List.filterMap_cons, ih, appendClauses,
        List.foldl_cons]
    · simp only [List.foldl_cons, hg, if_false, List.filterMap_cons, ih, appendClauses,
        Bool.false_eq_true]

theorem foldl_always_append {α : Type} (f : α → Str) :
    ∀ (xs : List α) (acc : Str),
      xs.foldl (fun a x => a ++ ", ".data ++ f x) acc =
        appendClauses acc (xs.map f) := by
  intro xs
  induction xs with
  | nil => intro acc; simp [appendClauses]
  | cons x xs ih =>
    intro acc
    simp only [List.foldl_cons]
    rw [ih]
    simp only [appendClauses, List.map_cons, List.foldl_cons]

theorem createTableEntries_length :
    ∀ {attrs : List (Str × Str)} {es : List ColEntry},
      createTableEntries attrs = some es → es.length = attrs.length := by
  intro attrs
  induction attrs with
  | nil => intro es h; simp [createTableEntries] at h; simp [← h]
  | cons p rest ih =>
    intro es h
    simp only [createTableEntries] at h
    cases he : createTableEntry p with
    | none => rw [he] at h; cases h
    | some e =>
      rw [he] at h
      cases hr : createTableEntries rest with
      | none => rw [hr] at h; cases h
      | some es' =>
        rw [hr] at h
        cases h
        simp [ih hr]

theorem createTableEntries_mem :
    ∀ {attrs : List (Str × Str)} {es : List ColEntry},
      createTableEntries attrs = some es →
      ∀ p ∈ attrs, ∃ e ∈ es, createTableEntry p = some e := by
  intro attrs
  induction attrs with
  | nil => intro es _ p hp; cases hp
  | cons q rest ih =>
    intro es h p hp
    simp only [createTableEntries] at h
    cases he : createTableEntry q with
    | none => rw [he] at h; cases h
    | some e =>
      rw [he] at h
      cases hr : createTableEntries rest with
      | none => rw [hr] at h; cases h
      | some es' =>
        rw [hr] at h
        cases h
        rcases List.mem_cons.mp hp with rfl | hp'
        · exact ⟨e, List.mem_cons_self _ _, he⟩
        · obtain ⟨e', he', hee⟩ := ih hr p hp'
          exact ⟨e', List.mem_cons_of_mem _ he', hee⟩

/-- A column whose type string contains `REFERENCES` gets its reference
clause split off: the `ColEntry` keeps the pre-`REFERENCES` part (with
`PRIMARY KEY` removed in the primary-key branch) as the column definition
and records the `REFERENCES …` tail for the deferred FOREIGN KEY
clause. -/
theorem createTableEntry_ref {name dt : Str} {e : ColEntry}
    (href : hasSubstring "REFERENCES".data dt = true)
    (h : createTableEntry (name, dt) = some e) :
    ∃ m1 m2, refMatch dt = some (m1, m2) ∧ e.name = name ∧ e.fk = some m2 ∧
      (e.col = quoteIdentifierL name ++ ' ' :: replaceFirst "PRIMARY KEY".data [] m1 ∨
       e.col = quoteIdentifierL name ++ ' ' :: m1) := by
  simp only [createTableEntry] at h
  by_cases hpk : hasSubstring "PRIMARY KEY".data dt = true
  · rw [if_pos hpk, if_pos href] at h
    cases hm : refMatch dt with
    | none => rw [hm] at h; cases h
    | some m =>
      obtain ⟨m1, m2⟩ := m
      rw [hm] at h
      cases h
      exact ⟨m1, m2, rfl, rfl, rfl, Or.inl rfl⟩
  · rw [if_neg hpk, if_pos href] at h
    cases hm : refMatch dt with
    | none => rw [hm] at h; cases h
    | some m =>
      obtain ⟨m1, m2⟩ := m
      rw [hm] at h
      cases h
      exact ⟨m1, m2, rfl, rfl, rfl, Or.inr rfl⟩

theorem quoteIdentifierL_ne_nil (name : Str) : quoteIdentifierL name ≠ [] := by
  simp [quoteIdentifierL]

theorem joinComma_quotes_ne_nil :
    ∀ {pks : List Str}, pks ≠ [] → joinComma (pks.map quoteIdentifierL) ≠ [] := by
  intro pks hne
  match pks, hne with
  | [p], _ => simpa [joinComma] using quoteIdentifierL_ne_nil p
  | p :: q :: rest, _ =>
    show quoteIdentifierL p ++ ", ".data ++ _ ≠ []
    simp [quoteIdentifierL]

/-- **C3**. Every successful `createTableQuery` output has the claimed
shape: the parenthesized clause list is the column definitions (in
attribute order), then the custom-index unique constraints, then — iff
the primary-key column set is non-empty — a single composite
`PRIMARY KEY (…)` clause, then one trailing `FOREIGN KEY (col) REFERENCES …`
clause per deferred reference; and every column whose type string
contains `REFERENCES` has that reference clause removed from its column
definition and re-emitted in those trailing clauses. -/
theorem dmdbCreateTableQuery_spec (tableName : Str) (attrs : List (Str × Str))
    (options : CreateTableOptions) (sql : Str) (hne : attrs ≠ [])
    (h : createTableQueryL tableName attrs options = some sql) :
    ∃ entries, createTableEntries attrs = some entries ∧
      sql = "CREATE TABLE IF NOT EXISTS ".data ++ quoteIdentifierL tableName ++
        " (".data ++
        joinComma (entries.map (·.col) ++
          (options.uniqueKeys.filterMap fun uk =>
            if uk.customIndex then some (uniqueKeyClause tableName uk) else none) ++
          (if entries.filter (·.isPk) = [] then []
           else ["PRIMARY KEY (".data ++
             joinComma (((entries.filter (·.isPk)).map (·.name)).map quoteIdentifierL) ++
             [')']]) ++
          (entries.filterMap fun e => e.fk.map fun f =>
            "FOREIGN KEY (".data ++ quoteIdentifierL e.name ++ [')', ' '] ++ f)) ++
        [')'] ++
        (match options.initialAutoIncrement with
          | some v => " AUTO_INCREMENT=".data ++ v
          | none => []) ++ [';'] ∧
      (∀ name dt, (name, dt) ∈ attrs → hasSubstring "REFERENCES".data dt = true →
        ∃ m1 m2, refMatch dt = some (m1, m2) ∧
          ∃ e ∈ entries, e.name = name ∧ e.fk = some m2 ∧
            (e.col = quoteIdentifierL name ++ ' ' ::
                replaceFirst "PRIMARY KEY".data [] m1 ∨
             e.col = quoteIdentifierL name ++ ' ' :: m1)) := by
  cases he : createTableEntries attrs with
  | none => rw [createTableQueryL, he] at h; cases h
  | some entries =>
    rw [createTableQueryL, he] at h
    have hlen := createTableEntries_length he
    have hene : entries ≠ [] := by
      intro hnil
      rw [hnil] at hlen
      exact hne (List.eq_nil_of_length_eq_zero hlen.symm)
    have hcols : entries.map (·.col) ≠ [] := by
      simpa using hene
    refine ⟨entries, rfl, ?_, ?_⟩
    · have hsql := (Option.some.inj h).symm
      rw [hsql]
      rw [foldl_guard_append (uniqueKeyClause tableName) (·.customIndex)
        options.uniqueKeys (joinComma (entries.map (·.col)))]
      rw [appendClauses_joinComma _ _ hcols]
      rw [foldl_always_append]
      by_cases hpk : entries.filter (·.isPk) = []
      · rw [if_neg (by simp [hpk, joinComma])]
        rw [appendClauses_joinComma _ _ (by simp [hcols])]
        rw [if_pos hpk]
        rw [List.map_filterMap]
        simp [List.append_assoc, Option.map_map, Function.comp_def]
      · have hpks : ((entries.filter (·.isPk)).map (·.name)) ≠ [] := by
          simpa using hpk
        rw [if_pos (List.length_pos.mpr (joinComma_quotes_ne_nil hpks))]
        rw [show ∀ acc pkc : Str, acc ++ ", ".data ++ pkc = appendClauses acc [pkc] from
          fun acc pkc => by simp [appendClauses]]
        rw [appendClauses_joinComma _ _ (by simp [hcols])]
        rw [appendClauses_joinComma _ _ (by simp [hcols])]
        rw [if_neg hpk]
        rw [List.map_filterMap]
        simp [List.append_assoc, Option.map_map, Function.comp_def]
    · intro name dt hmem href
      obtain ⟨e, hee, hentry⟩ := createTableEntries_mem he (name, dt) hmem
      obtain ⟨m1, m2, hm, hn, hfk, hcol⟩ := createTableEntry_ref href hentry
      exact ⟨m1, m2, hm, e, hee, hn, hfk, hcol⟩

set_option maxRecDepth 4096 in
/-- Witness for C3: the clause-structure theorem applied to a concrete
two-column table (identity primary key plus a foreign-key column) with a
custom-index unique key, via `dmdbCreateTableQuery_spec`. -/
theorem dmdbCreateTableQuery_spec_witness :
    ∃ entries,
      createTableEntries
        [("id".data, "INTEGER auto_increment PRIMARY KEY".data),
         ("fkcol".data, "INTEGER REFERENCES t (id)".data)] = some entries ∧
      "CREATE TABLE IF NOT EXISTS \"users\" (\"id\" INTEGER auto_increment , \"fkcol\" INTEGER, CONSTRAINT \"u1\" UNIQUE (\"name\"), PRIMARY KEY (\"id\"), FOREIGN KEY (\"fkcol\") REFERENCES t (id));".data =
        "CREATE TABLE IF NOT EXISTS ".data ++ quoteIdentifierL "users".data ++
        " (".data ++
        joinComma (entries.map (·.col) ++
          ((⟨[⟨some "u1".data, ["name".data], true⟩], none⟩ :
            CreateTableOptions).uniqueKeys.filterMap fun uk =>
            if uk.customIndex then some (uniqueKeyClause "users".data uk) else none) ++
          (if entries.filter (·.isPk) = [] then []
           else ["PRIMARY KEY (".data ++
             joinComma (((entries.filter (·.isPk)).map (·.name)).map quoteIdentifierL) ++
             [')']]) ++
          (entries.filterMap fun e => e.fk.map fun f =>
            "FOREIGN KEY (".data ++ quoteIdentifierL e.name ++ [')', ' '] ++ f)) ++
        [')'] ++
        (match (⟨[⟨some "u1".data, ["name".data], true⟩], none⟩ :
            CreateTableOptions).initialAutoIncrement with
          | some v => " AUTO_INCREMENT=".data ++ v
          | none => []) ++ [';'] ∧
      (∀ name dt,
        (name, dt) ∈ [("id".data, "INTEGER auto_increment PRIMARY KEY".data),
          ("fkcol".data, "INTEGER REFERENCES t (id)".data)] →
        hasSubstring "REFERENCES".data dt = true →
        ∃ m1 m2, refMatch dt = some (m1, m2) ∧
          ∃ e ∈ entries, e.name = name ∧ e.fk = some m2 ∧
            (e.col = quoteIdentifierL name ++ ' ' ::
                replaceFirst "PRIMARY KEY".data [] m1 ∨
             e.col = quoteIdentifierL name ++ ' ' :: m1)) :=
  dmdbCreateTableQuery_spec "users".data
    [("id".data, "INTEGER auto_increment PRIMARY KEY".data),
     ("fkcol".data, "INTEGER REFERENCES t (id)".data)]
    ⟨[⟨some "u1".data, ["name".data], true⟩], none⟩
    "CREATE TABLE IF NOT EXISTS \"users\" (\"id\" INTEGER auto_increment , \"fkcol\" INTEGER, CONSTRAINT \"u1\" UNIQUE (\"name\"), PRIMARY KEY (\"id\"), FOREIGN KEY (\"fkcol\") REFERENCES t (id));".data
    (by decide) (by decide)

/-! ## _checkValidJsonStatement (`lib/dialects/dmdb/query-generator.js`)

```js
const jsonFunctionRegex = /^\s*((?:[a-z]+_){0,2}jsonb?(?:_[a-z]+){0,2})\([^)]*\)/i;
const jsonOperatorRegex = /^\s*(->>?|@>|<@|\?[|&]?|\|{2}|#-)/i;
const tokenCaptureRegex = /^\s*((?:([`"'])(?:(?!\2).|\2{2})*\2)|[\w\d\s]+|[().,;+-])/i;

_checkValidJsonStatement(stmt) {
  let currentIndex = 0, openingBrackets = 0, closingBrackets = 0;
  let hasJsonFunction = false, hasInvalidToken = false;
  while (currentIndex < stmt.length) {
    const string = stmt.substr(currentIndex);
    const functionMatches = jsonFunctionRegex.exec(string);
    if (functionMatches) {
      currentIndex += functionMatches[0].indexOf('(');
      hasJsonFunction = true; continue;
    }
    const operatorMatches = jsonOperatorRegex.exec(string);
    if (operatorMatches) {
      currentIndex += operatorMatches[0].length;
      hasJsonFunction = true; continue;
    }
    const tokenMatches = tokenCaptureRegex.exec(string);
    if (tokenMatches) {
      const capturedToken = tokenMatches[1];
      if (capturedToken === '(') openingBrackets++;
      else if (capturedToken === ')') closingBrackets++;
      else if (capturedToken === ';') { hasInvalidToken = true; break; }
      currentIndex += tokenMatches[0].length;
      continue;
    }
    break;
  }
  if (hasJsonFunction && (hasInvalidToken || openingBrackets !== closingBrackets)) {
    throw new Error(`Invalid json statement: ${stmt}`);
  }
  return hasJsonFunction;
}
```

The three regexes are embedded as matching functions returning the
advance `currentIndex` gains; each doc comment derives the regex's match
semantics. Character classes cover the ASCII range the source's inputs
use (`\s`, `\w`, `[a-z]` with the `i` flag). -/

/-- JavaScript `\s` (ASCII range). -/
def isJsWS (c : Char) : Bool :=
  c = ' ' || c = '\t' || c = '\n' || c = '\r' || c = '\x0b' || c = '\x0c'

/-- A character the json-function name grammar can contain
(`[a-z]` under the `i` flag, plus the literal `_`). -/
def isNameChar (c : Char) : Bool := c.isAlpha || c = '_'

/-- JavaScript `[\w\d\s]`. -/
def isWordChar (c : Char) : Bool := c.isAlphanum || c = '_' || isJsWS c

/-- Whether a name matches `((?:[a-z]+_){0,2}jsonb?(?:_[a-z]+){0,2})`
(case-insensitively): split on `_`; all segments nonempty, at most two
before and at most two after a segment that is exactly `json` or
`jsonb`. -/
def nameOk (run : Str) : Bool :=
  let parts := splitOnChar '_' (run.map Char.toLower)
  let n := parts.length
  parts.all (fun p => !p.isEmpty) &&
    (List.range n).any fun i =>
      decide (i ≤ 2) && decide (n - 1 - i ≤ 2) &&
        (decide (parts.get? i = some "json".data) ||
         decide (parts.get? i = some "jsonb".data))

/-- Embedding of `jsonFunctionRegex.exec(string)`, returning
`functionMatches[0].indexOf('(')` (the advance the loop applies).

Match semantics derivation: `\s*` takes the maximal whitespace run (the
name starts with a letter); the name must be immediately followed by `(`
and consists of letters/underscores only, so it is exactly the maximal
name-character run after the whitespace, accepted iff it satisfies the
name grammar; `[^)]*\)` then needs some `)` later. `indexOf('(')` is the
whitespace length plus the name length. -/
def funcMatch (l : Str) : Option Nat :=
  let ws := l.takeWhile isJsWS
  let rest := l.drop ws.length
  let run := rest.takeWhile isNameChar
  if nameOk run && decide ((rest.drop run.length).head? = some '(') &&
      (rest.drop (run.length + 1)).contains ')' then
    some (ws.length + run.length)
  else none

/-- Embedding of `jsonOperatorRegex.exec(string)`, returning the matched
length. The alternation `(->>?|@>|<@|\?[|&]?|\|{2}|#-)` is dispatched on
the first character after the whitespace; optional parts are greedy
(`->>` beats `->`, `?|`/`?&` beat `?`). -/
def opMatch (l : Str) : Option Nat :=
  let ws := l.takeWhile isJsWS
  let rest := l.drop ws.length
  match rest with
  | [] => none
  | c :: rest' =>
    if c = '-' then
      if rest'.head? = some '>' then
        if rest'.tail.head? = some '>' then some (ws.length + 3)
        else some (ws.length + 2)
      else none
    else if c = '@' then
      if rest'.head? = some '>' then some (ws.length + 2) else none
    else if c = '<' then
      if rest'.head? = some '@' then some (ws.length + 2) else none
    else if c = '?' then
      if rest'.head? = some '|' || rest'.head? = some '&' then some (ws.length + 2)
      else some (ws.length + 1)
    else if c = '|' then
      if rest'.head? = some '|' then some (ws.length + 2) else none
    else if c = '#' then
      if rest'.head? = some '-' then some (ws.length + 2) else none
    else none

/-- Matcher for the quoted-token body `(?:(?!\2).|\2{2})*\2` given the
opening quote `q`: `l` is the text after the opening quote; returns the
number of characters consumed including the closing quote. Greedy with
backtracking: a doubled quote is preferred as a unit, falling back to
closing on its first quote; `.` cannot cross a line terminator. -/
def matchQ (q : Char) : Str → Option Nat
  | [] => none
  | c :: rest =>
    if c = q then
      match rest with
      | c2 :: rest2 =>
        if c2 = q then
          match matchQ q rest2 with
          | some n => some (n + 2)
          | none => some 1
        else some 1
      | [] => some 1
    else if c = '\n' || c = '\r' then none
    else
      match matchQ q rest with
      | some n => some (n + 1)
      | none => none

/-- What the loop needs of a captured token: whether it is the literal
`(`, `)` or `;`. -/
inductive TokKind where
  | lparen
  | rparen
  | semi
  | other
deriving Repr, DecidableEq

/-- Embedding of `tokenCaptureRegex.exec(string)`: the matched length and
the captured token's kind.

Match semantics derivation: with the maximal whitespace run consumed,
the alternation tries a quoted token, a `[\w\d\s]+` run, then a single
punctuation character. If all fail and some whitespace was consumed,
`\s*` backtracks one character and `[\w\d\s]+` matches that single
whitespace character (whitespace is in `\w\d\s`), so the total matched
length is just the whitespace run; deeper backtracking never occurs. A
quoted or word token can never equal `(`, `)` or `;`. -/
def tokenMatch (l : Str) : Option (Nat × TokKind) :=
  let ws := l.takeWhile isJsWS
  let rest := l.drop ws.length
  match rest with
  | [] => if ws.length > 0 then some (ws.length, .other) else none
  | c :: rest' =>
    if c = '`' || c = '"' || c = '\'' then
      match matchQ c rest' with
      | some n => some (ws.length + 1 + n, .other)
      | none => if ws.length > 0 then some (ws.length, .other) else none
    else if isWordChar c then
      some (ws.length + (rest.takeWhile isWordChar).length, .other)
    else if c = '(' then some (ws.length + 1, .lparen)
    else if c = ')' then some (ws.length + 1, .rparen)
    else if c = ';' then some (ws.length + 1, .semi)
    else if c = '.' || c = ',' || c = '+' || c = '-' then some (ws.length + 1, .other)
    else if ws.length > 0 then some (ws.length, .other)
    else none

/-- The scanner state when the `while` loop exits. -/
structure ScanOut where
  opening : Nat
  closing : Nat
  hasJson : Bool
  invalid : Bool
deriving Repr, DecidableEq

/-- The `while (currentIndex < stmt.length)` loop over the remaining
text, with the four mutable flags threaded. The fuel only bounds
recursion; every match advances by at least one character, so
`stmt.length + 1` steps always suffice. -/
def jsonScan (fuel : Nat) (l : Str) (opening closing : Nat) (hasJson : Bool) :
    ScanOut :=
  match fuel with
  | 0 => ⟨opening, closing, hasJson, false⟩
  | fuel + 1 =>
    match funcMatch l with
    | some n => jsonScan fuel (l.drop n) opening closing true
    | none =>
      match opMatch l with
      | some n => jsonScan fuel (l.drop n) opening closing true
      | none =>
        match tokenMatch l with
        | some (n, .lparen) => jsonScan fuel (l.drop n) (opening + 1) closing hasJson
        | some (n, .rparen) => jsonScan fuel (l.drop n) opening (closing + 1) hasJson
        | some (_, .semi) => ⟨opening, closing, hasJson, true⟩
        | some (n, .other) => jsonScan fuel (l.drop n) opening closing hasJson
        | none => ⟨opening, closing, hasJson, false⟩

/-- `_checkValidJsonStatement(stmt)`: scan, then throw iff a json
function/operator was seen together with an invalid token or unbalanced
brackets; otherwise return whether a json function was seen. -/
def checkValidJsonStatement (stmt : Str) : Except Str Bool :=
  let st := jsonScan (stmt.length + 1) stmt 0 0 false
  if st.hasJson ∧ (st.invalid ∨ st.opening ≠ st.closing) then
    .error ("Invalid json statement: ".data ++ stmt)
  else .ok st.hasJson

/-! ### Theorems: JSON-path validation (C4) -/

/-- A letter, digit or underscore (a word character that is not
whitespace): the character class the C4 theorem families draw
function-argument text from. -/
def isIdentChar (c : Char) : Bool := c.isAlphanum || c = '_'

/-- First character of one of the json operator alternatives. -/
def opStart (c : Char) : Bool :=
  c = '-' || c = '@' || c = '<' || c = '?' || c = '|' || c = '#'

/-- A character that no recognized json function or operator can start
and that never produces a `(`/`)`/`;` token. -/
def benignChar (c : Char) : Bool := isWordChar c || c = '.' || c = ','

theorem isJsWS_cases {c : Char} (h : isJsWS c = true) :
    c = ' ' ∨ c = '\t' ∨ c = '\n' ∨ c = '\r' ∨ c = '\x0b' ∨ c = '\x0c' := by
  simpa [isJsWS, or_assoc] using h

theorem isIdentChar_not_ws {c : Char} (h : isIdentChar c = true) :
    isJsWS c = false := by
  by_contra hws
  rw [Bool.not_eq_false] at hws
  rcases isJsWS_cases hws with rfl | rfl | rfl | rfl | rfl | rfl <;>
    exact absurd h (by decide)

theorem isIdentChar_not_quote {c : Char} (h : isIdentChar c = true) :
    (c = '`' || c = '"' || c = '\'') = false := by
  by_contra hq
  rw [Bool.not_eq_false] at hq
  rcases (by simpa [or_assoc] using hq : c = '`' ∨ c = '"' ∨ c = '\'') with rfl | rfl | rfl <;>
    exact absurd h (by decide)

theorem isIdentChar_word {c : Char} (h : isIdentChar c = true) :
    isWordChar c = true := by
  simp only [isIdentChar, Bool.or_eq_true] at h
  rcases h with h' | h' <;> simp [isWordChar, h']

theorem opStart_not_ident {c : Char} (h : opStart c = true) :
    isIdentChar c = false := by
  by_contra hid
  rw [Bool.not_eq_false] at hid
  rcases (by simpa [opStart, or_assoc] using h :
      c = '-' ∨ c = '@' ∨ c = '<' ∨ c = '?' ∨ c = '|' ∨ c = '#') with
    rfl | rfl | rfl | rfl | rfl | rfl <;> exact absurd hid (by decide)

theorem isNameChar_not_ws {c : Char} (h : isNameChar c = true) :
    isJsWS c = false := by
  have hid : isIdentChar c = true := by
    simp only [isNameChar, Bool.or_eq_true] at h
    rcases h with h' | h'
    · simp [isIdentChar, Char.isAlphanum, h']
    · simp [isIdentChar, h']
  exact isIdentChar_not_ws hid

theorem takeWhile_all_append {p : Char → Bool} :
    ∀ {xs : Str} {c : Char} {ys : Str}, (∀ x ∈ xs, p x = true) → p c = false →
      (xs ++ c :: ys).takeWhile p = xs := by
  intro xs
  induction xs with
  | nil => intro c ys _ hc; simp [List.takeWhile_cons, hc]
  | cons x xs ih =>
    intro c ys hall hc
    have hx : p x = true := hall x (by simp)
    simp only [List.cons_append, List.takeWhile_cons, hx, if_true]
    rw [ih (fun a ha => hall a (by simp [ha])) hc]

theorem drop_takeWhile_length (p : Char → Bool) (l : Str) :
    l.drop (l.takeWhile p).length = l.dropWhile p := by
  induction l with
  | nil => rfl
  | cons c cs ih =>
    by_cases hc : p c = true
    · simp only [List.takeWhile_cons, hc, if_true, List.length_cons,
        List.drop_succ_cons, List.dropWhile_cons, ih]
    · simp only [List.takeWhile_cons, hc, Bool.false_eq_true, if_false,
        List.length_nil, List.drop_zero, List.dropWhile_cons, if_neg hc]

theorem dropWhile_head_neg {p : Char → Bool} :
    ∀ {l : Str} {c : Char} {r : Str}, l.dropWhile p = c :: r → p c = false := by
  intro l
  induction l with
  | nil => intro c r h; cases h
  | cons x xs ih =>
    intro c r h
    rw [List.dropWhile_cons] at h
    by_cases hx : p x = true
    · rw [if_pos hx] at h; exact ih h
    · rw [if_neg hx] at h
      cases h
      exact Bool.not_eq_true _ ▸ hx

theorem funcMatch_paren_mem {l : Str} {n : Nat} (h : funcMatch l = some n) :
    '(' ∈ l := by
  simp only [funcMatch] at h
  split at h
  case isTrue hc =>
    simp only [Bool.and_eq_true, decide_eq_true_eq] at hc
    obtain ⟨⟨-, hhead⟩, -⟩ := hc
    have hmem := List.mem_of_mem_head? (Option.mem_def.mpr hhead)
    exact List.drop_subset _ _ (List.drop_subset _ _ hmem)
  case isFalse => cases h

theorem funcMatch_none_of_no_paren {l : Str} (h : '(' ∉ l) :
    funcMatch l = none := by
  cases hf : funcMatch l with
  | none => rfl
  | some n => exact absurd (funcMatch_paren_mem hf) h

theorem opMatch_none_of_head {l : Str}
    (h : ∀ c r, l.dropWhile isJsWS = c :: r → opStart c = false) :
    opMatch l = none := by
  simp only [opMatch, drop_takeWhile_length]
  cases hd : l.dropWhile isJsWS with
  | nil => rfl
  | cons c r =>
    have hc := h c r hd
    simp only [opStart, Bool.or_eq_false_iff, decide_eq_false_iff_not] at hc
    simp [hc.1.1.1.1.1, hc.1.1.1.1.2, hc.1.1.1.2, hc.1.1.2, hc.1.2, hc.2]

/-- A word run beginning with a non-whitespace word character produces a
single `.other` token spanning the whitespace and the run. -/
theorem tokenMatch_ident_run {a : Char} {args rest : Str} {c : Char}
    (ha : isIdentChar a = true) (hargs : ∀ x ∈ args, isIdentChar x = true)
    (hc : isWordChar c = false) :
    tokenMatch ((a :: args) ++ c :: rest) =
      some ((a :: args).length, .other) := by
  have hws : isJsWS a = false := isIdentChar_not_ws ha
  have hqa := isIdentChar_not_quote ha
  have hwa := isIdentChar_word ha
  have hrun : (a :: (args ++ c :: rest)).takeWhile isWordChar = a :: args := by
    rw [List.takeWhile_cons, if_pos hwa]
    rw [takeWhile_all_append (fun x hx => isIdentChar_word (hargs x hx)) hc]
  have htw : (a :: (args ++ c :: rest)).takeWhile isJsWS = [] := by
    simp [List.takeWhile_cons, hws]
  simp only [Bool.or_eq_false_iff] at hqa
  simp [tokenMatch, htw, hrun, hwa, hqa.1.1, hqa.1.2, hqa.2]

theorem tokenMatch_punct {c : Char} {rest : Str} {k : TokKind}
    (hws : isJsWS c = false) (hq : (c = '`' || c = '"' || c = '\'') = false)
    (hw : isWordChar c = false)
    (hk : (if c = '(' then some (1, TokKind.lparen)
      else if c = ')' then some (1, TokKind.rparen)
      else if c = ';' then some (1, TokKind.semi)
      else if c = '.' || c = ',' || c = '+' || c = '-' then some (1, TokKind.other)
      else none) = some (1, k)) :
    tokenMatch (c :: rest) = some (1, k) := by
  have htw : (c :: rest).takeWhile isJsWS = [] := by simp [List.takeWhile_cons, hws]
  simp only [tokenMatch, htw, List.length_nil, List.drop_zero]
  simp only [Bool.or_eq_false_iff] at hq
  rw [if_neg (by simp [hq.1.1, hq.1.2, hq.2])]
  rw [if_neg (by simp [hw])]
  split_ifs at hk with h1 h2 h3 h4 <;>
    simp_all [h1]

theorem benign_not_opStart {c : Char} (h : benignChar c = true) :
    opStart c = false := by
  by_contra hop
  rw [Bool.not_eq_false] at hop
  rcases (by simpa [opStart, or_assoc] using hop :
      c = '-' ∨ c = '@' ∨ c = '<' ∨ c = '?' ∨ c = '|' ∨ c = '#') with
    rfl | rfl | rfl | rfl | rfl | rfl <;> exact absurd h (by decide)

theorem tokenMatch_benign {l : Str} (hne : l ≠ [])
    (hb : ∀ c ∈ l, benignChar c = true) :
    ∃ n, tokenMatch l = some (n, .other) ∧ 1 ≤ n := by
  cases hd : l.dropWhile isJsWS with
  | nil =>
    have htw : l.takeWhile isJsWS = l := by
      conv_rhs => rw [← List.takeWhile_append_dropWhile (p := isJsWS) (l := l)]
      rw [hd, List.append_nil]
    refine ⟨l.length, ?_, ?_⟩
    · simp only [tokenMatch, drop_takeWhile_length, hd]
      rw [htw, if_pos (List.length_pos.mpr hne)]
    · exact List.length_pos.mpr hne
  | cons c r =>
    have hcl : c ∈ l :=
      (List.dropWhile_sublist (p := isJsWS) (l := l)).subset
        (hd ▸ List.mem_cons_self c r)
    have hbc := hb c hcl
    have hwsc : isJsWS c = false := dropWhile_head_neg hd
    by_cases hid : isIdentChar c = true
    · have hqa := isIdentChar_not_quote hid
      simp only [Bool.or_eq_false_iff] at hqa
      refine ⟨(l.takeWhile isJsWS).length + ((c :: r).takeWhile isWordChar).length,
        ?_, ?_⟩
      · simp only [tokenMatch, drop_takeWhile_length, hd]
        rw [if_neg (by simp [hqa.1.1, hqa.1.2, hqa.2])]
        rw [if_pos (isIdentChar_word hid)]
      · simp only [List.takeWhile_cons, isIdentChar_word hid, if_true,
          List.length_cons]
        omega
    · have hid' : c.isAlphanum = false ∧ ¬ c = '_' := by
        simpa [isIdentChar, not_or] using hid
      have hw : isWordChar c = false := by
        simp [isWordChar, hid'.1, hid'.2, hwsc]
      have hdot : c = '.' ∨ c = ',' := by
        simpa [benignChar, hw, or_assoc] using hbc
      refine ⟨(l.takeWhile isJsWS).length + 1, ?_, by omega⟩
      simp only [tokenMatch, drop_takeWhile_length, hd]
      rcases hdot with rfl | rfl <;> simp [hw]

theorem jsonScan_benign : ∀ (fuel : Nat) (l : Str) (op cl : Nat),
    (∀ c ∈ l, benignChar c = true) →
    ∃ op' cl', jsonScan fuel l op cl false = ⟨op', cl', false, false⟩ := by
  intro fuel
  induction fuel with
  | zero => intro l op cl _; exact ⟨op, cl, rfl⟩
  | succ fuel ih =>
    intro l op cl hb
    cases l with
    | nil => exact ⟨op, cl, rfl⟩
    | cons c cs =>
      have hfp : '(' ∉ (c :: cs) := fun hm =>
        absurd (hb '(' hm) (by decide)
      have hf := funcMatch_none_of_no_paren hfp
      have hop : opMatch (c :: cs) = none := opMatch_none_of_head fun d r hd =>
        benign_not_opStart (hb d
          ((List.dropWhile_sublist (p := isJsWS) (l := c :: cs)).subset
            (hd ▸ List.mem_cons_self d r)))
      obtain ⟨n, htok, hn⟩ := tokenMatch_benign (by simp) hb
      obtain ⟨op', cl', hrec⟩ := ih ((c :: cs).drop n) op cl
        (fun d hd => hb d (List.drop_subset _ _ hd))
      exact ⟨op', cl', by simp [jsonScan, hf, hop, htok, hrec]⟩

theorem contains_rparen_of_mem {l : Str} (h : ')' ∈ l) : l.contains ')' = true := by
  simpa using h

theorem funcMatch_name {name rest : Str} (hne : name ≠ [])
    (hn : ∀ c ∈ name, isNameChar c = true) (hok : nameOk name = true)
    (hr : ')' ∈ rest) :
    funcMatch (name ++ '(' :: rest) = some name.length := by
  match name, hne with
  | a :: nm, _ =>
    have hws : isJsWS a = false := isNameChar_not_ws (hn a (by simp))
    have htw : ((a :: nm) ++ '(' :: rest).takeWhile isJsWS = [] := by
      simp [List.takeWhile_cons, hws]
    have hrun : ((a :: nm) ++ '(' :: rest).takeWhile isNameChar = a :: nm :=
      takeWhile_all_append hn (by decide)
    have hd1 : ((a :: nm) ++ '(' :: rest).drop (a :: nm).length = '(' :: rest :=
      List.drop_left _ _
    have hd2 : ((a :: nm) ++ '(' :: rest).drop ((a :: nm).length + 1) = rest := by
      rw [show (a :: nm) ++ '(' :: rest = ((a :: nm) ++ ['(']) ++ rest by simp]
      rw [show (a :: nm).length + 1 = ((a :: nm) ++ ['(']).length by simp]
      exact List.drop_left _ _
    simp only [funcMatch, htw, List.length_nil, List.drop_zero, hrun, hd1, hd2]
    rw [if_pos (by
      simp only [Bool.and_eq_true, decide_eq_true_eq]
      exact ⟨⟨hok, by simp⟩, contains_rparen_of_mem hr⟩)]
    simp

theorem funcMatch_cons_not_name {c : Char} (rest : Str)
    (hws : isJsWS c = false) (hnc : isNameChar c = false) :
    funcMatch (c :: rest) = none := by
  have htw : (c :: rest).takeWhile isJsWS = [] := by simp [List.takeWhile_cons, hws]
  have hrun : (c :: rest).takeWhile isNameChar = [] := by
    simp [List.takeWhile_cons, hnc]
  simp only [funcMatch, htw, List.length_nil, List.drop_zero, hrun]
  rw [if_neg (by simp [show nameOk [] = false by decide])]

theorem opMatch_cons_not_op {c : Char} (rest : Str)
    (hws : isJsWS c = false) (hop : opStart c = false) :
    opMatch (c :: rest) = none :=
  opMatch_none_of_head fun d r hd => by
    rw [List.dropWhile_cons, if_neg (by simp [hws])] at hd
    cases hd
    exact hop

theorem jsonScan_nil (fuel op cl : Nat) (hj : Bool) :
    jsonScan fuel [] op cl hj = ⟨op, cl, hj, false⟩ := by
  cases fuel <;> rfl

theorem jsonScan_succ (fuel : Nat) (l : Str) (op cl : Nat) (hj : Bool) :
    jsonScan (fuel + 1) l op cl hj =
      match funcMatch l with
      | some n => jsonScan fuel (l.drop n) op cl true
      | none =>
        match opMatch l with
        | some n => jsonScan fuel (l.drop n) op cl true
        | none =>
          match tokenMatch l with
          | some (n, .lparen) => jsonScan fuel (l.drop n) (op + 1) cl hj
          | some (n, .rparen) => jsonScan fuel (l.drop n) op (cl + 1) hj
          | some (_, .semi) => ⟨op, cl, hj, true⟩
          | some (n, .other) => jsonScan fuel (l.drop n) op cl hj
          | none => ⟨op, cl, hj, false⟩ := rfl

theorem ident_not_opStart {c : Char} (h : isIdentChar c = true) :
    opStart c = false :=
  benign_not_opStart (by simp [benignChar, isIdentChar_word h])

theorem dropWhile_append_sep {p : Char → Bool} {s : Char} (hs : p s = false) :
    ∀ {ys X : Str} {c : Char} {r : Str},
      (ys ++ s :: X).dropWhile p = c :: r → c ∈ ys ∨ c = s := by
  intro ys
  induction ys with
  | nil =>
    intro X c r h
    rw [List.nil_append, List.dropWhile_cons, if_neg (by simp [hs])] at h
    cases h
    exact Or.inr rfl
  | cons y ys ih =>
    intro X c r h
    rw [List.cons_append, List.dropWhile_cons] at h
    by_cases hy : p y = true
    · rw [if_pos (by simp [hy])] at h
      rcases ih h with h' | h'
      · exact Or.inl (List.mem_cons_of_mem _ h')
      · exact Or.inr h'
    · rw [if_neg (by simp [hy])] at h
      cases h
      exact Or.inl (List.mem_cons_self _ _)

/-- A block of identifier characters followed by a non-name separator can
never be recognized as a json function call: the character after the
name-character run is a digit from the block or the separator, never
`(`. -/
theorem funcMatch_none_of_ident_block {a : Char} {args X : Str} {s : Char}
    (ha : isIdentChar a = true) (hargs : ∀ c ∈ args, isIdentChar c = true)
    (hsname : isNameChar s = false) (hsne : s ≠ '(') :
    funcMatch ((a :: args) ++ s :: X) = none := by
  have hws : isJsWS a = false := isIdentChar_not_ws ha
  have htw : ((a :: args) ++ s :: X).takeWhile isJsWS = [] := by
    simp [List.takeWhile_cons, hws]
  simp only [funcMatch, htw, List.length_nil, List.drop_zero]
  rw [if_neg ?_]
  rw [drop_takeWhile_length]
  intro hcond
  simp only [Bool.and_eq_true, decide_eq_true_eq] at hcond
  obtain ⟨⟨-, hhead⟩, -⟩ := hcond
  cases hdw : ((a :: args) ++ s :: X).dropWhile isNameChar with
  | nil => rw [hdw] at hhead; cases hhead
  | cons c r =>
    rw [hdw] at hhead
    simp only [List.head?_cons, Option.some.injEq] at hhead
    subst hhead
    rcases dropWhile_append_sep (by simpa using hsname) hdw with hmem | rfl
    · rcases List.mem_cons.mp hmem with rfl | hmem'
      · exact absurd ha (by decide)
      · exact absurd (hargs _ hmem') (by decide)
    · exact hsne rfl

theorem jsonScan_step_func {l : Str} {n : Nat} (hf : funcMatch l = some n)
    (fuel op cl : Nat) (hj : Bool) :
    jsonScan (fuel + 1) l op cl hj = jsonScan fuel (l.drop n) op cl true := by
  rw [jsonScan_succ, hf]

theorem jsonScan_step_lparen {l : Str} {n : Nat} (hf : funcMatch l = none)
    (ho : opMatch l = none) (ht : tokenMatch l = some (n, .lparen))
    (fuel op cl : Nat) (hj : Bool) :
    jsonScan (fuel + 1) l op cl hj = jsonScan fuel (l.drop n) (op + 1) cl hj := by
  rw [jsonScan_succ, hf, ho, ht]

theorem jsonScan_step_rparen {l : Str} {n : Nat} (hf : funcMatch l = none)
    (ho : opMatch l = none) (ht : tokenMatch l = some (n, .rparen))
    (fuel op cl : Nat) (hj : Bool) :
    jsonScan (fuel + 1) l op cl hj = jsonScan fuel (l.drop n) op (cl + 1) hj := by
  rw [jsonScan_succ, hf, ho, ht]

theorem jsonScan_step_other {l : Str} {n : Nat} (hf : funcMatch l = none)
    (ho : opMatch l = none) (ht : tokenMatch l = some (n, .other))
    (fuel op cl : Nat) (hj : Bool) :
    jsonScan (fuel + 1) l op cl hj = jsonScan fuel (l.drop n) op cl hj := by
  rw [jsonScan_succ, hf, ho, ht]

theorem jsonScan_step_semi {l : Str} {n : Nat} (hf : funcMatch l = none)
    (ho : opMatch l = none) (ht : tokenMatch l = some (n, .semi))
    (fuel op cl : Nat) (hj : Bool) :
    jsonScan (fuel + 1) l op cl hj = ⟨op, cl, hj, true⟩ := by
  rw [jsonScan_succ, hf, ho, ht]

theorem jsonScan_rparen_semi (f : Nat) (tail : Str) (op cl : Nat) :
    jsonScan (f + 2) (')' :: ';' :: tail) op cl true = ⟨op, cl + 1, true, true⟩ := by
  rw [show f + 2 = (f + 1) + 1 from rfl]
  rw [jsonScan_step_rparen (funcMatch_cons_not_name _ (by decide) (by decide))
    (opMatch_cons_not_op _ (by decide) (by decide))
    (tokenMatch_punct (k := .rparen) (by decide) (by decide) (by decide) (by decide))]
  simp only [List.drop_succ_cons, List.drop_zero]
  rw [jsonScan_step_semi (funcMatch_cons_not_name _ (by decide) (by decide))
    (opMatch_cons_not_op _ (by decide) (by decide))
    (tokenMatch_punct (k := .semi) (by decide) (by decide) (by decide) (by decide))]

theorem jsonScan_rparen_rparen (f : Nat) (op cl : Nat) :
    jsonScan (f + 2) [')', ')'] op cl true = ⟨op, cl + 2, true, false⟩ := by
  rw [show f + 2 = (f + 1) + 1 from rfl]
  rw [jsonScan_step_rparen (funcMatch_cons_not_name _ (by decide) (by decide))
    (opMatch_cons_not_op _ (by decide) (by decide))
    (tokenMatch_punct (k := .rparen) (by decide) (by decide) (by decide) (by decide))]
  simp only [List.drop_succ_cons, List.drop_zero]
  rw [jsonScan_step_rparen (funcMatch_cons_not_name _ (by decide) (by decide))
    (opMatch_cons_not_op _ (by decide) (by decide))
    (tokenMatch_punct (k := .rparen) (by decide) (by decide) (by decide) (by decide))]
  simp only [List.drop_succ_cons, List.drop_zero]
  rw [jsonScan_nil]

/-- A quote character (the `([`"'])` class of `tokenCaptureRegex`). -/
def isQuoteChar (c : Char) : Bool := c = '`' || c = '"' || c = '\''

/-- An unquoted argument-text character: a word character (including
whitespace) or one of the punctuation tokens `.`, `,`, `+`, `-`, `(`,
`)`. Every such character is consumable by the token lexer and none can
begin a json operator that the following text could complete. -/
def sChar (c : Char) : Bool :=
  isWordChar c || c = '.' || c = ',' || c = '+' || c = '-' || c = '(' || c = ')'

/-- Like `sChar` but without parentheses, for argument text that must
not disturb the bracket counters. -/
def sCharNP (c : Char) : Bool :=
  isWordChar c || c = '.' || c = ',' || c = '+' || c = '-'

/-- Argument text as the token lexer sees it: a sequence of plain
characters drawn from `P` interleaved with complete quoted string
tokens (whose body has no embedded quote of its own kind and no line
terminator, and which are not immediately followed by the same quote
character, so the lexer closes them where written). -/
inductive ArgTokens (P : Char → Bool) : Str → Prop where
  | nil : ArgTokens P []
  | chr {c : Char} {l : Str} : P c = true → isQuoteChar c = false →
      ArgTokens P l → ArgTokens P (c :: l)
  | quoted {q : Char} {inner l : Str} : isQuoteChar q = true →
      (∀ x ∈ inner, x ≠ q ∧ x ≠ '\n' ∧ x ≠ '\r') →
      l.head? ≠ some q →
      ArgTokens P l → ArgTokens P (q :: (inner ++ q :: l))

/-- The nine json operator literals of `jsonOperatorRegex`, as character
lists. -/
def jsonOperators : List Str :=
  ["->>".data, "->".data, "@>".data, "<@".data, "?|".data, "?&".data,
   "?".data, "||".data, "#-".data]

theorem takeWhile_append_sep {p : Char → Bool} {sep : Char}
    (hsep : p sep = false) :
    ∀ (b t : Str), (b ++ sep :: t).takeWhile p = b.takeWhile p := by
  intro b t
  induction b with
  | nil => simp [List.takeWhile_cons, hsep]
  | cons c b ih =>
    by_cases hc : p c = true
    · simp [List.takeWhile_cons, hc, ih]
    · simp [List.takeWhile_cons, hc]

theorem dropWhile_append_sep2 {p : Char → Bool} {sep : Char}
    (hsep : p sep = false) :
    ∀ (b t : Str), (b ++ sep :: t).dropWhile p = b.dropWhile p ++ sep :: t := by
  intro b t
  induction b with
  | nil => simp [List.dropWhile_cons, hsep]
  | cons c b ih =>
    by_cases hc : p c = true
    · simp [List.dropWhile_cons, hc, ih]
    · simp [List.dropWhile_cons, hc]

theorem isQuoteChar_not_ws {c : Char} (h : isQuoteChar c = true) :
    isJsWS c = false := by
  rcases (by simpa [isQuoteChar, or_assoc] using h : c = '`' ∨ c = '"' ∨ c = '\'') with
    rfl | rfl | rfl <;> decide

theorem isJsWS_not_quote {c : Char} (h : isJsWS c = true) :
    isQuoteChar c = false := by
  rcases isJsWS_cases h with rfl | rfl | rfl | rfl | rfl | rfl <;> decide

theorem isWordChar_not_quote {c : Char} (h : isWordChar c = true) :
    isQuoteChar c = false := by
  by_contra hq
  rw [Bool.not_eq_false] at hq
  rcases (by simpa [isQuoteChar, or_assoc] using hq : c = '`' ∨ c = '"' ∨ c = '\'') with
    rfl | rfl | rfl <;> exact absurd h (by decide)

theorem isNameChar_not_quote {c : Char} (h : isNameChar c = true) :
    isQuoteChar c = false := by
  by_contra hq
  rw [Bool.not_eq_false] at hq
  rcases (by simpa [isQuoteChar, or_assoc] using hq : c = '`' ∨ c = '"' ∨ c = '\'') with
    rfl | rfl | rfl <;> exact absurd h (by decide)

theorem argTokens_split {P : Char → Bool} {w : Str} (h : ArgTokens P w) :
    ∀ {u v : Str}, w = u ++ v → (∀ c ∈ u, isQuoteChar c = false) →
      ArgTokens P v := by
  induction h with
  | nil =>
    intro u v hw _
    rcases List.append_eq_nil.mp hw.symm with ⟨rfl, rfl⟩
    exact .nil
  | chr hP hq htail ih =>
    intro u v hw hu
    cases u with
    | nil =>
      simp only [List.nil_append] at hw
      exact hw ▸ .chr hP hq htail
    | cons d u =>
      simp only [List.cons_append, List.cons.injEq] at hw
      exact ih hw.2 fun x hx => hu x (List.mem_cons_of_mem _ hx)
  | quoted hq hinner hnext htail ih =>
    intro u v hw hu
    cases u with
    | nil =>
      simp only [List.nil_append] at hw
      exact hw ▸ .quoted hq hinner hnext htail
    | cons d u =>
      simp only [List.cons_append, List.cons.injEq] at hw
      have := hu d (List.mem_cons_self _ _)
      rw [← hw.1] at this
      exact absurd hq (by simp [this])

/-- Dropping a block of non-quote characters from the front of argument
text leaves argument text: the block cannot cut a quoted token open. -/
theorem argTokens_append_elim {P : Char → Bool} {u v : Str}
    (h : ArgTokens P (u ++ v)) (hu : ∀ c ∈ u, isQuoteChar c = false) :
    ArgTokens P v :=
  argTokens_split h rfl hu

theorem argTokens_mono {P Q : Char → Bool} (hPQ : ∀ c, P c = true → Q c = true) :
    ∀ {l : Str}, ArgTokens P l → ArgTokens Q l := by
  intro l h
  induction h with
  | nil => exact .nil
  | chr hP hq _ ih => exact .chr (hPQ _ hP) hq ih
  | quoted hq hinner hnext _ ih => exact .quoted hq hinner hnext ih

theorem argTokens_cons_inv {P : Char → Bool} {c : Char} {r : Str}
    (h : ArgTokens P (c :: r)) :
    (P c = true ∧ isQuoteChar c = false ∧ ArgTokens P r) ∨
    (isQuoteChar c = true ∧ ∃ inner l₀, r = inner ++ c :: l₀ ∧
      (∀ x ∈ inner, x ≠ c ∧ x ≠ '\n' ∧ x ≠ '\r') ∧
      l₀.head? ≠ some c ∧ ArgTokens P l₀) := by
  cases h with
  | chr hP hq htail => exact Or.inl ⟨hP, hq, htail⟩
  | quoted hq hinner hnext htail =>
    exact Or.inr ⟨hq, _, _, rfl, hinner, hnext, htail⟩

/-- Every character a body can put in front of the separator is a plain
body character, a quote, or the separator itself. -/
theorem argTokens_head_append {P : Char → Bool} {b : Str} {sep : Char}
    {t : Str} {h : Char} (hb : ArgTokens P b)
    (hh : (b ++ sep :: t).head? = some h) :
    P h = true ∨ isQuoteChar h = true ∨ h = sep := by
  cases b with
  | nil =>
    simp only [List.nil_append, List.head?_cons, Option.some.injEq] at hh
    exact Or.inr (Or.inr hh.symm)
  | cons c r =>
    simp only [List.cons_append, List.head?_cons, Option.some.injEq] at hh
    subst hh
    rcases argTokens_cons_inv hb with ⟨hP, -, -⟩ | ⟨hq, -⟩
    · exact Or.inl hP
    · exact Or.inr (Or.inl hq)

/-- Executable recognizer for `ArgTokens`. -/
def argTokensDec (P : Char → Bool) : Nat → Str → Bool
  | _, [] => true
  | 0, _ :: _ => false
  | fuel + 1, c :: r =>
    if isQuoteChar c then
      let inner := r.takeWhile (fun x => decide (x ≠ c))
      match r.drop inner.length with
      | [] => false
      | _ :: l₀ =>
        inner.all (fun x => decide (x ≠ '\n') && decide (x ≠ '\r')) &&
          decide (l₀.head? ≠ some c) && argTokensDec P fuel l₀
    else P c && argTokensDec P fuel r

theorem argTokensDec_sound {P : Char → Bool} :
    ∀ (fuel : Nat) (l : Str), argTokensDec P fuel l = true → ArgTokens P l := by
  intro fuel
  induction fuel with
  | zero =>
    intro l h
    cases l with
    | nil => exact .nil
    | cons c r => exact absurd h (by simp [argTokensDec])
  | succ fuel ih =>
    intro l h
    cases l with
    | nil => exact .nil
    | cons c r =>
      by_cases hq : isQuoteChar c = true
      · rw [argTokensDec, if_pos hq] at h
        simp only [drop_takeWhile_length] at h
        cases hd : r.dropWhile (fun x => decide (x ≠ c)) with
        | nil => rw [hd] at h; cases h
        | cons d l₀ =>
          rw [hd] at h
          simp only [Bool.and_eq_true, List.all_eq_true, Bool.and_eq_true,
            decide_eq_true_eq] at h
          obtain ⟨⟨hinner, hnext⟩, htail⟩ := h
          have hdc : d = c := by
            have := dropWhile_head_neg hd
            simpa using this
          subst hdc
          have hr : r = r.takeWhile (fun x => decide (x ≠ d)) ++ d :: l₀ := by
            conv_lhs => rw [← List.takeWhile_append_dropWhile
              (p := fun x => decide (x ≠ d)) (l := r)]
            rw [hd]
          rw [hr]
          exact .quoted hq
            (fun x hx => ⟨by simpa using List.mem_takeWhile_imp hx,
              (hinner x hx).1, (hinner x hx).2⟩)
            hnext (ih l₀ htail)
      · rw [argTokensDec, if_neg hq] at h
        simp only [Bool.and_eq_true] at h
        exact .chr h.1 (by simpa using hq) (ih r h.2)

theorem drop_after_takeWhile (p : Char → Bool) (l : Str) (m : Nat) :
    l.drop ((l.takeWhile p).length + m) = (l.dropWhile p).drop m := by
  have h := List.drop_drop m (l.takeWhile p).length l
  rw [drop_takeWhile_length] at h
  rw [h]

theorem drop_append_length (X Y : Str) (m : Nat) :
    (X ++ Y).drop (X.length + m) = Y.drop m := by
  have h := List.drop_drop m X.length (X ++ Y)
  rw [List.drop_left] at h
  rw [h]

theorem funcMatch_shape {l : Str} {n : Nat} (h : funcMatch l = some n) :
    n = (l.takeWhile isJsWS).length +
        ((l.dropWhile isJsWS).takeWhile isNameChar).length ∧
      (l.dropWhile isJsWS).takeWhile isNameChar ≠ [] := by
  simp only [funcMatch, drop_takeWhile_length] at h
  split at h
  case isTrue hc =>
    refine ⟨(Option.some.inj h).symm, fun hnil => ?_⟩
    rw [hnil] at hc
    simp only [Bool.and_eq_true] at hc
    exact absurd hc.1.1 (by decide)
  case isFalse => cases h

theorem funcMatch_none_of_head2 {l : Str}
    (h : ∀ c r, l.dropWhile isJsWS = c :: r → isNameChar c = false) :
    funcMatch l = none := by
  simp only [funcMatch, drop_takeWhile_length]
  cases hd : l.dropWhile isJsWS with
  | nil => simp [show nameOk [] = false by decide]
  | cons c r =>
    have hc := h c r hd
    simp [List.takeWhile_cons, hc, show nameOk [] = false by decide]

theorem matchQ_closes {q : Char} :
    ∀ {inner rest : Str},
      (∀ x ∈ inner, x ≠ q ∧ x ≠ '\n' ∧ x ≠ '\r') →
      rest.head? ≠ some q →
      matchQ q (inner ++ q :: rest) = some (inner.length + 1) := by
  intro inner
  induction inner with
  | nil =>
    intro rest _ hr
    cases rest with
    | nil => simp [matchQ]
    | cons c2 rest2 =>
      have hc2 : ¬ c2 = q := fun h => hr (by simp [h])
      simp [matchQ, hc2]
  | cons x inner ih =>
    intro rest hinner hr
    have hx := hinner x (by simp)
    have hrec := ih (fun y hy => hinner y (by simp [hy])) hr
    rw [List.cons_append, matchQ.eq_def]
    simp only []
    rw [if_neg hx.1, if_neg (by simp [hx.2.1, hx.2.2]), hrec]
    simp

theorem opMatch_none_dash {l r : Str}
    (hd : l.dropWhile isJsWS = '-' :: r) (hr : r.head? ≠ some '>') :
    opMatch l = none := by
  simp only [opMatch, drop_takeWhile_length, hd]
  simp [hr]

theorem sChar_opStart_dash {c : Char} (h : sChar c = true)
    (hws : isJsWS c = false) (hne : c ≠ '-') : opStart c = false := by
  by_contra hop
  rw [Bool.not_eq_false] at hop
  rcases (by simpa [opStart, or_assoc] using hop :
      c = '-' ∨ c = '@' ∨ c = '<' ∨ c = '?' ∨ c = '|' ∨ c = '#') with
    rfl | rfl | rfl | rfl | rfl | rfl
  · exact hne rfl
  all_goals exact absurd h (by decide)

theorem quote_not_name {c : Char} (h : isQuoteChar c = true) :
    isNameChar c = false := by
  rcases (by simpa [isQuoteChar, or_assoc] using h : c = '`' ∨ c = '"' ∨ c = '\'') with
    rfl | rfl | rfl <;> decide

theorem quote_not_opStart {c : Char} (h : isQuoteChar c = true) :
    opStart c = false := by
  rcases (by simpa [isQuoteChar, or_assoc] using h : c = '`' ∨ c = '"' ∨ c = '\'') with
    rfl | rfl | rfl <;> decide

theorem tokenMatch_ws_word {l : Str} {c : Char} {r : Str}
    (hd : l.dropWhile isJsWS = c :: r) (hw : isWordChar c = true)
    (hq : isQuoteChar c = false) :
    tokenMatch l = some ((l.takeWhile isJsWS).length +
      ((c :: r).takeWhile isWordChar).length, .other) := by
  have hq' : (c = '`' || c = '"' || c = '\'') = false := by
    simpa [isQuoteChar] using hq
  simp only [tokenMatch, drop_takeWhile_length, hd]
  rw [if_neg (by simp [hq']), if_pos hw]

theorem tokenMatch_ws_punct {l : Str} {c : Char} {r : Str} {k : TokKind}
    (hd : l.dropWhile isJsWS = c :: r)
    (hq : isQuoteChar c = false) (hw : isWordChar c = false)
    (hk : (if c = '(' then some (1, TokKind.lparen)
      else if c = ')' then some (1, TokKind.rparen)
      else if c = ';' then some (1, TokKind.semi)
      else if c = '.' || c = ',' || c = '+' || c = '-' then some (1, TokKind.other)
      else none) = some (1, k)) :
    tokenMatch l = some ((l.takeWhile isJsWS).length + 1, k) := by
  have hq' : (c = '`' || c = '"' || c = '\'') = false := by
    simpa [isQuoteChar] using hq
  simp only [tokenMatch, drop_takeWhile_length, hd]
  rw [if_neg (by simp [hq']), if_neg (by simp [hw])]
  split_ifs at hk with h1 h2 h3 h4 <;> simp_all [h1]

theorem tokenMatch_ws_quoted {l : Str} {q : Char} {r : Str} {m : Nat}
    (hd : l.dropWhile isJsWS = q :: r) (hq : isQuoteChar q = true)
    (hm : matchQ q r = some m) :
    tokenMatch l = some ((l.takeWhile isJsWS).length + 1 + m, .other) := by
  have hq' : (q = '`' || q = '"' || q = '\'') = true := by
    simpa [isQuoteChar] using hq
  simp only [tokenMatch, drop_takeWhile_length, hd]
  rw [if_pos (by simp [hq']), hm]

/-- Scanning argument-shaped text that ends in a `;` token: the loop
eventually lexes the `;` and exits with `invalid = true`, keeping
`hasJson = true`. -/
theorem jsonScan_body_semi :
    ∀ (fuel : Nat) (b t : Str) (op cl : Nat), ArgTokens sChar b →
      b.length < fuel →
      ∃ op' cl', jsonScan fuel (b ++ ';' :: t) op cl true = ⟨op', cl', true, true⟩ := by
  intro fuel
  induction fuel with
  | zero => intro b t op cl _ h; exact absurd h (Nat.not_lt_zero _)
  | succ fuel ih =>
    intro b t op cl hb hlen
    have htw : (b ++ ';' :: t).takeWhile isJsWS = b.takeWhile isJsWS :=
      takeWhile_append_sep (by decide) b t
    have hdw : (b ++ ';' :: t).dropWhile isJsWS = b.dropWhile isJsWS ++ ';' :: t :=
      dropWhile_append_sep2 (by decide) b t
    have hb' : ArgTokens sChar (b.dropWhile isJsWS) :=
      argTokens_split hb (List.takeWhile_append_dropWhile isJsWS b).symm
        (fun c hc => isJsWS_not_quote (List.mem_takeWhile_imp hc))
    have hlen' : (b.dropWhile isJsWS).length ≤ b.length :=
      List.Sublist.length_le (List.dropWhile_sublist (p := isJsWS) (l := b))
    cases hbd : b.dropWhile isJsWS with
    | nil =>
      have hd : (b ++ ';' :: t).dropWhile isJsWS = ';' :: t := by
        rw [hdw, hbd, List.nil_append]
      have hf : funcMatch (b ++ ';' :: t) = none :=
        funcMatch_none_of_head2 (fun c r h => by rw [hd] at h; cases h; decide)
      have ho : opMatch (b ++ ';' :: t) = none :=
        opMatch_none_of_head (fun c r h => by rw [hd] at h; cases h; decide)
      have ht : tokenMatch (b ++ ';' :: t) =
          some (((b ++ ';' :: t).takeWhile isJsWS).length + 1, .semi) :=
        tokenMatch_ws_punct (k := .semi) hd (by decide) (by decide) (by decide)
      exact ⟨op, cl, jsonScan_step_semi hf ho ht fuel op cl true⟩
    | cons c r =>
      have hb'c : ArgTokens sChar (c :: r) := hbd ▸ hb'
      have hd : (b ++ ';' :: t).dropWhile isJsWS = c :: (r ++ ';' :: t) := by
        rw [hdw, hbd]; rfl
      have hcws : isJsWS c = false := dropWhile_head_neg hbd
      have hclen : (c :: r).length ≤ b.length := hbd ▸ hlen'
      rcases argTokens_cons_inv hb'c with ⟨hP, hq, hr⟩ |
        ⟨hq, inner, l₀, hreq, hinner, hnext, hl₀⟩
      · cases hfm : funcMatch (b ++ ';' :: t) with
        | some n =>
          obtain ⟨hn, hrun⟩ := funcMatch_shape hfm
          have hta : ((b ++ ';' :: t).dropWhile isJsWS).takeWhile isNameChar
              = (b.dropWhile isJsWS).takeWhile isNameChar := by
            rw [hdw]; exact takeWhile_append_sep (by decide) _ _
          rw [hta] at hrun
          have hdrop : (b ++ ';' :: t).drop n =
              (b.dropWhile isJsWS).dropWhile isNameChar ++ ';' :: t := by
            rw [hn, drop_after_takeWhile, hdw, drop_takeWhile_length,
              dropWhile_append_sep2 (by decide)]
          have hb2 : ArgTokens sChar ((b.dropWhile isJsWS).dropWhile isNameChar) :=
            argTokens_split hb'
              (List.takeWhile_append_dropWhile isNameChar _).symm
              (fun x hx => isNameChar_not_quote (List.mem_takeWhile_imp hx))
          have hlen2 : ((b.dropWhile isJsWS).dropWhile isNameChar).length < b.length := by
            have hsplit := congrArg List.length
              (List.takeWhile_append_dropWhile (p := isNameChar)
                (l := b.dropWhile isJsWS))
            rw [List.length_append] at hsplit
            have h1 : 0 < ((b.dropWhile isJsWS).takeWhile isNameChar).length :=
              List.length_pos.mpr hrun
            omega
          rw [jsonScan_step_func hfm fuel op cl true, hdrop]
          exact ih _ t op cl hb2 (by omega)
        | none =>
          have ho : opMatch (b ++ ';' :: t) = none := by
            by_cases hc : c = '-'
            · subst hc
              refine opMatch_none_dash hd ?_
              intro hh
              rcases argTokens_head_append hr hh with h1 | h1 | h1 <;>
                exact absurd h1 (by decide)
            · exact opMatch_none_of_head (fun d rr hdd => by
                rw [hd] at hdd
                cases hdd
                exact sChar_opStart_dash hP hcws hc)
          by_cases hw : isWordChar c = true
          · have ht := tokenMatch_ws_word hd hw hq
            have hdrop : (b ++ ';' :: t).drop
                (((b ++ ';' :: t).takeWhile isJsWS).length +
                  ((c :: (r ++ ';' :: t)).takeWhile isWordChar).length) =
                (c :: r).dropWhile isWordChar ++ ';' :: t := by
              rw [drop_after_takeWhile, hd,
                show c :: (r ++ ';' :: t) = (c :: r) ++ ';' :: t from rfl,
                drop_takeWhile_length, dropWhile_append_sep2 (by decide)]
            have hb2 : ArgTokens sChar ((c :: r).dropWhile isWordChar) :=
              argTokens_split hb'c
                (List.takeWhile_append_dropWhile isWordChar _).symm
                (fun x hx => isWordChar_not_quote (List.mem_takeWhile_imp hx))
            have hlen2 : ((c :: r).dropWhile isWordChar).length < b.length := by
              have hsplit := congrArg List.length
                (List.takeWhile_append_dropWhile (p := isWordChar) (l := c :: r))
              rw [List.length_append] at hsplit
              have h1 : ((c :: r).takeWhile isWordChar).length =
                  (r.takeWhile isWordChar).length + 1 := by
                simp [List.takeWhile_cons, hw]
              simp only [List.length_cons] at hsplit hclen
              omega
            rw [jsonScan_step_other hfm ho ht fuel op cl true, hdrop]
            exact ih _ t op cl hb2 (by omega)
          · have hcc : c = '.' ∨ c = ',' ∨ c = '+' ∨ c = '-' ∨ c = '(' ∨ c = ')' := by
              have hP' := hP
              simp only [sChar, Bool.or_eq_true, decide_eq_true_eq] at hP'
              rcases hP' with (((((hh | hh) | hh) | hh) | hh) | hh) | hh
              · exact absurd hh hw
              · exact Or.inl hh
              · exact Or.inr (Or.inl hh)
              · exact Or.inr (Or.inr (Or.inl hh))
              · exact Or.inr (Or.inr (Or.inr (Or.inl hh)))
              · exact Or.inr (Or.inr (Or.inr (Or.inr (Or.inl hh))))
              · exact Or.inr (Or.inr (Or.inr (Or.inr (Or.inr hh))))
            have hdrop : (b ++ ';' :: t).drop
                (((b ++ ';' :: t).takeWhile isJsWS).length + 1) = r ++ ';' :: t := by
              rw [drop_after_takeWhile, hd]
              rfl
            have hrlen : r.length < b.length := by
              simp only [List.length_cons] at hclen; omega
            rcases hcc with rfl | rfl | rfl | rfl | rfl | rfl
            · have ht := tokenMatch_ws_punct (k := .other) hd (by decide)
                (by decide) (by decide)
              rw [jsonScan_step_other hfm ho ht fuel op cl true, hdrop]
              exact ih _ t op cl hr (by omega)
            · have ht := tokenMatch_ws_punct (k := .other) hd (by decide)
                (by decide) (by decide)
              rw [jsonScan_step_other hfm ho ht fuel op cl true, hdrop]
              exact ih _ t op cl hr (by omega)
            · have ht := tokenMatch_ws_punct (k := .other) hd (by decide)
                (by decide) (by decide)
              rw [jsonScan_step_other hfm ho ht fuel op cl true, hdrop]
              exact ih _ t op cl hr (by omega)
            · have ht := tokenMatch_ws_punct (k := .other) hd (by decide)
                (by decide) (by decide)
              rw [jsonScan_step_other hfm ho ht fuel op cl true, hdrop]
              exact ih _ t op cl hr (by omega)
            · have ht := tokenMatch_ws_punct (k := .lparen) hd (by decide)
                (by decide) (by decide)
              rw [jsonScan_step_lparen hfm ho ht fuel op cl true, hdrop]
              exact ih _ t (op + 1) cl hr (by omega)
            · have ht := tokenMatch_ws_punct (k := .rparen) hd (by decide)
                (by decide) (by decide)
              rw [jsonScan_step_rparen hfm ho ht fuel op cl true, hdrop]
              exact ih _ t op (cl + 1) hr (by omega)
      · subst hreq
        have hd2 : (b ++ ';' :: t).dropWhile isJsWS
            = c :: (inner ++ c :: (l₀ ++ ';' :: t)) := by
          rw [hd]
          simp [List.append_assoc]
        have hf : funcMatch (b ++ ';' :: t) = none :=
          funcMatch_none_of_head2 (fun d rr hdd => by
            rw [hd2] at hdd; cases hdd; exact quote_not_name hq)
        have ho : opMatch (b ++ ';' :: t) = none :=
          opMatch_none_of_head (fun d rr hdd => by
            rw [hd2] at hdd; cases hdd; exact quote_not_opStart hq)
        have hnext2 : (l₀ ++ ';' :: t).head? ≠ some c := by
          cases l₀ with
          | nil =>
            intro hh
            simp only [List.nil_append, List.head?_cons, Option.some.injEq] at hh
            rw [← hh] at hq
            exact absurd hq (by decide)
          | cons d l₀' =>
            intro hh
            simp only [List.cons_append, List.head?_cons, Option.some.injEq] at hh
            exact hnext (by simp [hh])
        have hmq : matchQ c (inner ++ c :: (l₀ ++ ';' :: t)) = some (inner.length + 1) :=
          matchQ_closes hinner hnext2
        have ht := tokenMatch_ws_quoted hd2 hq hmq
        have hdrop : (b ++ ';' :: t).drop
            (((b ++ ';' :: t).takeWhile isJsWS).length + 1 + (inner.length + 1)) =
            l₀ ++ ';' :: t := by
          rw [Nat.add_assoc, drop_after_takeWhile, hd2,
            show c :: (inner ++ c :: (l₀ ++ ';' :: t)) =
              (c :: inner) ++ c :: (l₀ ++ ';' :: t) from rfl,
            show (1 : Nat) + (inner.length + 1) = (c :: inner).length + 1 by
              simp [Nat.add_comm],
            drop_append_length]
          rfl
        have hlen2 : l₀.length < b.length := by
          simp only [List.length_cons, List.length_append] at hclen
          omega
        rw [jsonScan_step_other hf ho ht fuel op cl true, hdrop]
        exact ih _ t op cl hl₀ (by omega)

theorem sCharNP_sChar {c : Char} (h : sCharNP c = true) : sChar c = true := by
  simp only [sCharNP, Bool.or_eq_true] at h
  simp only [sChar, Bool.or_eq_true]
  tauto

/-- Scanning parenthesis-free argument-shaped text followed by two `)`
tokens: every argument token is consumed without touching the bracket
counters, then the two `)` each bump `closing`, and the loop ends with
the original `opening` against `closing + 2`. -/
theorem jsonScan_body_np :
    ∀ (fuel : Nat) (b : Str) (op cl : Nat), ArgTokens sCharNP b →
      b.length + 2 < fuel →
      jsonScan fuel (b ++ ')' :: [')']) op cl true = ⟨op, cl + 2, true, false⟩ := by
  intro fuel
  induction fuel with
  | zero => intro b op cl _ h; exact absurd h (Nat.not_lt_zero _)
  | succ fuel ih =>
    intro b op cl hb hlen
    have htw : (b ++ ')' :: [')']).takeWhile isJsWS = b.takeWhile isJsWS :=
      takeWhile_append_sep (by decide) b [')']
    have hdw : (b ++ ')' :: [')']).dropWhile isJsWS
        = b.dropWhile isJsWS ++ ')' :: [')'] :=
      dropWhile_append_sep2 (by decide) b [')']
    have hb' : ArgTokens sCharNP (b.dropWhile isJsWS) :=
      argTokens_split hb (List.takeWhile_append_dropWhile isJsWS b).symm
        (fun c hc => isJsWS_not_quote (List.mem_takeWhile_imp hc))
    have hlen' : (b.dropWhile isJsWS).length ≤ b.length :=
      List.Sublist.length_le (List.dropWhile_sublist (p := isJsWS) (l := b))
    cases hbd : b.dropWhile isJsWS with
    | nil =>
      have hd : (b ++ ')' :: [')']).dropWhile isJsWS = ')' :: [')'] := by
        rw [hdw, hbd, List.nil_append]
      have hf : funcMatch (b ++ ')' :: [')']) = none :=
        funcMatch_none_of_head2 (fun c r h => by rw [hd] at h; cases h; decide)
      have ho : opMatch (b ++ ')' :: [')']) = none :=
        opMatch_none_of_head (fun c r h => by rw [hd] at h; cases h; decide)
      have ht : tokenMatch (b ++ ')' :: [')']) =
          some (((b ++ ')' :: [')']).takeWhile isJsWS).length + 1, .rparen) :=
        tokenMatch_ws_punct (k := .rparen) hd (by decide) (by decide) (by decide)
      have hdrop : (b ++ ')' :: [')']).drop
          (((b ++ ')' :: [')']).takeWhile isJsWS).length + 1) = [')'] := by
        rw [drop_after_takeWhile, hd]
        rfl
      obtain ⟨f', rfl⟩ : ∃ f', fuel = f' + 1 := ⟨fuel - 1, by omega⟩
      rw [jsonScan_step_rparen hf ho ht (f' + 1) op cl true, hdrop]
      rw [jsonScan_step_rparen (funcMatch_cons_not_name _ (by decide) (by decide))
        (opMatch_cons_not_op _ (by decide) (by decide))
        (tokenMatch_punct (k := .rparen) (by decide) (by decide) (by decide)
          (by decide)) f' op (cl + 1) true]
      simp only [List.drop_succ_cons, List.drop_zero]
      rw [jsonScan_nil]
    | cons c r =>
      have hb'c : ArgTokens sCharNP (c :: r) := hbd ▸ hb'
      have hd : (b ++ ')' :: [')']).dropWhile isJsWS = c :: (r ++ ')' :: [')']) := by
        rw [hdw, hbd]; rfl
      have hcws : isJsWS c = false := dropWhile_head_neg hbd
      have hclen : (c :: r).length ≤ b.length := hbd ▸ hlen'
      rcases argTokens_cons_inv hb'c with ⟨hP, hq, hr⟩ |
        ⟨hq, inner, l₀, hreq, hinner, hnext, hl₀⟩
      · cases hfm : funcMatch (b ++ ')' :: [')']) with
        | some n =>
          obtain ⟨hn, hrun⟩ := funcMatch_shape hfm
          have hta : ((b ++ ')' :: [')']).dropWhile isJsWS).takeWhile isNameChar
              = (b.dropWhile isJsWS).takeWhile isNameChar := by
            rw [hdw]; exact takeWhile_append_sep (by decide) _ _
          rw [hta] at hrun
          have hdrop : (b ++ ')' :: [')']).drop n =
              (b.dropWhile isJsWS).dropWhile isNameChar ++ ')' :: [')'] := by
            rw [hn, drop_after_takeWhile, hdw, drop_takeWhile_length,
              dropWhile_append_sep2 (by decide)]
          have hb2 : ArgTokens sCharNP ((b.dropWhile isJsWS).dropWhile isNameChar) :=
            argTokens_split hb'
              (List.takeWhile_append_dropWhile isNameChar _).symm
              (fun x hx => isNameChar_not_quote (List.mem_takeWhile_imp hx))
          have hlen2 : ((b.dropWhile isJsWS).dropWhile isNameChar).length < b.length := by
            have hsplit := congrArg List.length
              (List.takeWhile_append_dropWhile (p := isNameChar)
                (l := b.dropWhile isJsWS))
            rw [List.length_append] at hsplit
            have h1 : 0 < ((b.dropWhile isJsWS).takeWhile isNameChar).length :=
              List.length_pos.mpr hrun
            omega
          rw [jsonScan_step_func hfm fuel op cl true, hdrop]
          exact ih _ op cl hb2 (by omega)
        | none =>
          have ho : opMatch (b ++ ')' :: [')']) = none := by
            by_cases hc : c = '-'
            · subst hc
              refine opMatch_none_dash hd ?_
              intro hh
              rcases argTokens_head_append hr hh with h1 | h1 | h1 <;>
                exact absurd h1 (by decide)
            · exact opMatch_none_of_head (fun d rr hdd => by
                rw [hd] at hdd
                cases hdd
                exact sChar_opStart_dash (sCharNP_sChar hP) hcws hc)
          by_cases hw : isWordChar c = true
          · have ht := tokenMatch_ws_word hd hw hq
            have hdrop : (b ++ ')' :: [')']).drop
                (((b ++ ')' :: [')']).takeWhile isJsWS).length +
                  ((c :: (r ++ ')' :: [')'])).takeWhile isWordChar).length) =
                (c :: r).dropWhile isWordChar ++ ')' :: [')'] := by
              rw [drop_after_takeWhile, hd,
                show c :: (r ++ ')' :: [')']) = (c :: r) ++ ')' :: [')'] from rfl,
                drop_takeWhile_length, dropWhile_append_sep2 (by decide)]
            have hb2 : ArgTokens sCharNP ((c :: r).dropWhile isWordChar) :=
              argTokens_split hb'c
                (List.takeWhile_append_dropWhile isWordChar _).symm
                (fun x hx => isWordChar_not_quote (List.mem_takeWhile_imp hx))
            have hlen2 : ((c :: r).dropWhile isWordChar).length < b.length := by
              have hsplit := congrArg List.length
                (List.takeWhile_append_dropWhile (p := isWordChar) (l := c :: r))
              rw [List.length_append] at hsplit
              have h1 : ((c :: r).takeWhile isWordChar).length =
                  (r.takeWhile isWordChar).length + 1 := by
                simp [List.takeWhile_cons, hw]
              simp only [List.length_cons] at hsplit hclen
              omega
            rw [jsonScan_step_other hfm ho ht fuel op cl true, hdrop]
            exact ih _ op cl hb2 (by omega)
          · have hcc : c = '.' ∨ c = ',' ∨ c = '+' ∨ c = '-' := by
              have hP' := hP
              simp only [sCharNP, Bool.or_eq_true, decide_eq_true_eq] at hP'
              rcases hP' with (((hh | hh) | hh) | hh) | hh
              · exact absurd hh hw
              · exact Or.inl hh
              · exact Or.inr (Or.inl hh)
              · exact Or.inr (Or.inr (Or.inl hh))
              · exact Or.inr (Or.inr (Or.inr hh))
            have hdrop : (b ++ ')' :: [')']).drop
                (((b ++ ')' :: [')']).takeWhile isJsWS).length + 1) =
                r ++ ')' :: [')'] := by
              rw [drop_after_takeWhile, hd]
              rfl
            have hrlen : r.length < b.length := by
              simp only [List.length_cons] at hclen; omega
            rcases hcc with rfl | rfl | rfl | rfl
            · have ht := tokenMatch_ws_punct (k := .other) hd (by decide)
                (by decide) (by decide)
              rw [jsonScan_step_other hfm ho ht fuel op cl true, hdrop]
              exact ih _ op cl hr (by omega)
            · have ht := tokenMatch_ws_punct (k := .other) hd (by decide)
                (by decide) (by decide)
              rw [jsonScan_step_other hfm ho ht fuel op cl true, hdrop]
              exact ih _ op cl hr (by omega)
            · have ht := tokenMatch_ws_punct (k := .other) hd (by decide)
                (by decide) (by decide)
              rw [jsonScan_step_other hfm ho ht fuel op cl true, hdrop]
              exact ih _ op cl hr (by omega)
            · have ht := tokenMatch_ws_punct (k := .other) hd (by decide)
                (by decide) (by decide)
              rw [jsonScan_step_other hfm ho ht fuel op cl true, hdrop]
              exact ih _ op cl hr (by omega)
      · subst hreq
        have hd2 : (b ++ ')' :: [')']).dropWhile isJsWS
            = c :: (inner ++ c :: (l₀ ++ ')' :: [')'])) := by
          rw [hd]
          simp [List.append_assoc]
        have hf : funcMatch (b ++ ')' :: [')']) = none :=
          funcMatch_none_of_head2 (fun d rr hdd => by
            rw [hd2] at hdd; cases hdd; exact quote_not_name hq)
        have ho : opMatch (b ++ ')' :: [')']) = none :=
          opMatch_none_of_head (fun d rr hdd => by
            rw [hd2] at hdd; cases hdd; exact quote_not_opStart hq)
        have hnext2 : (l₀ ++ ')' :: [')']).head? ≠ some c := by
          cases l₀ with
          | nil =>
            intro hh
            simp only [List.nil_append, List.head?_cons, Option.some.injEq] at hh
            rw [← hh] at hq
            exact absurd hq (by decide)
          | cons d l₀' =>
            intro hh
            simp only [List.cons_append, List.head?_cons, Option.some.injEq] at hh
            exact hnext (by simp [hh])
        have hmq : matchQ c (inner ++ c :: (l₀ ++ ')' :: [')'])) =
            some (inner.length + 1) :=
          matchQ_closes hinner hnext2
        have ht := tokenMatch_ws_quoted hd2 hq hmq
        have hdrop : (b ++ ')' :: [')']).drop
            (((b ++ ')' :: [')']).takeWhile isJsWS).length + 1 + (inner.length + 1)) =
            l₀ ++ ')' :: [')'] := by
          rw [Nat.add_assoc, drop_after_takeWhile, hd2,
            show c :: (inner ++ c :: (l₀ ++ ')' :: [')'])) =
              (c :: inner) ++ c :: (l₀ ++ ')' :: [')']) from rfl,
            show (1 : Nat) + (inner.length + 1) = (c :: inner).length + 1 by
              simp [Nat.add_comm],
            drop_append_length]
          rfl
        have hlen2 : l₀.length < b.length := by
          simp only [List.length_cons, List.length_append] at hclen
          omega
        rw [jsonScan_step_other hf ho ht fuel op cl true, hdrop]
        exact ih _ op cl hl₀ (by omega)

theorem jsonScan_step_op {l : Str} {n : Nat} (hf : funcMatch l = none)
    (ho : opMatch l = some n) (fuel op cl : Nat) (hj : Bool) :
    jsonScan (fuel + 1) l op cl hj = jsonScan fuel (l.drop n) op cl true := by
  rw [jsonScan_succ, hf, ho]

theorem opMatch_cons_eval {c : Char} (X : Str) (hws : isJsWS c = false) :
    opMatch (c :: X) =
      (if c = '-' then
        if X.head? = some '>' then
          if X.tail.head? = some '>' then some 3 else some 2
        else none
      else if c = '@' then (if X.head? = some '>' then some 2 else none)
      else if c = '<' then (if X.head? = some '@' then some 2 else none)
      else if c = '?' then
        (if X.head? = some '|' || X.head? = some '&' then some 2 else some 1)
      else if c = '|' then (if X.head? = some '|' then some 2 else none)
      else if c = '#' then (if X.head? = some '-' then some 2 else none)
      else none) := by
  have htw : (c :: X).takeWhile isJsWS = [] := by simp [List.takeWhile_cons, hws]
  simp only [opMatch, htw, List.length_nil, List.drop_zero, Nat.zero_add]

theorem opMatch_oplit {oplit : Str} (hop : oplit ∈ jsonOperators) {rest : Str}
    (hr : ∀ h, rest.head? = some h → h ≠ '>' ∧ h ≠ '|' ∧ h ≠ '&') :
    opMatch (oplit ++ rest) = some oplit.length := by
  have hne : rest.head? ≠ some '>' ∧ rest.head? ≠ some '|' ∧
      rest.head? ≠ some '&' := by
    cases rest with
    | nil => simp
    | cons h t =>
      have hh := hr h rfl
      simp [hh.1, hh.2.1, hh.2.2]
  simp only [jsonOperators, List.mem_cons, List.not_mem_nil, or_false] at hop
  rcases hop with rfl | rfl | rfl | rfl | rfl | rfl | rfl | rfl | rfl
  · rw [show "->>".data ++ rest = '-' :: ('>' :: '>' :: rest) from rfl,
      opMatch_cons_eval _ (by decide)]
    simp
  · rw [show "->".data ++ rest = '-' :: ('>' :: rest) from rfl,
      opMatch_cons_eval _ (by decide)]
    simp [hne.1]
  · rw [show "@>".data ++ rest = '@' :: ('>' :: rest) from rfl,
      opMatch_cons_eval _ (by decide)]
    simp
  · rw [show "<@".data ++ rest = '<' :: ('@' :: rest) from rfl,
      opMatch_cons_eval _ (by decide)]
    simp
  · rw [show "?|".data ++ rest = '?' :: ('|' :: rest) from rfl,
      opMatch_cons_eval _ (by decide)]
    simp
  · rw [show "?&".data ++ rest = '?' :: ('&' :: rest) from rfl,
      opMatch_cons_eval _ (by decide)]
    simp
  · rw [show "?".data ++ rest = '?' :: rest from rfl,
      opMatch_cons_eval _ (by decide)]
    simp [hne.2.1, hne.2.2]
  · rw [show "||".data ++ rest = '|' :: ('|' :: rest) from rfl,
      opMatch_cons_eval _ (by decide)]
    simp
  · rw [show "#-".data ++ rest = '#' :: ('-' :: rest) from rfl,
      opMatch_cons_eval _ (by decide)]
    simp

theorem jsonOperators_shape {oplit : Str} (h : oplit ∈ jsonOperators) :
    ∃ s opRest, oplit = s :: opRest ∧ isNameChar s = false ∧
      isWordChar s = false ∧ isJsWS s = false ∧ s ≠ '(' := by
  simp only [jsonOperators, List.mem_cons, List.not_mem_nil, or_false] at h
  rcases h with rfl | rfl | rfl | rfl | rfl | rfl | rfl | rfl | rfl
  · exact ⟨'-', ['>', '>'], rfl, by decide, by decide, by decide, by decide⟩
  · exact ⟨'-', ['>'], rfl, by decide, by decide, by decide, by decide⟩
  · exact ⟨'@', ['>'], rfl, by decide, by decide, by decide, by decide⟩
  · exact ⟨'<', ['@'], rfl, by decide, by decide, by decide, by decide⟩
  · exact ⟨'?', ['|'], rfl, by decide, by decide, by decide, by decide⟩
  · exact ⟨'?', ['&'], rfl, by decide, by decide, by decide, by decide⟩
  · exact ⟨'?', [], rfl, by decide, by decide, by decide, by decide⟩
  · exact ⟨'|', ['|'], rfl, by decide, by decide, by decide, by decide⟩
  · exact ⟨'#', ['-'], rfl, by decide, by decide, by decide, by decide⟩

/-- Complete run of the scanner on `name(body;tail`-shaped input: the
function matches, the `(` bumps `opening`, and the `;` inside the
argument region stops the loop with `invalid = true`. -/
theorem jsonScan_func_semi {name body tail : Str}
    (hne : name ≠ []) (hn : ∀ c ∈ name, isNameChar c = true)
    (hok : nameOk name = true) (hb : ArgTokens sChar body)
    (hrp : ')' ∈ body ++ ';' :: tail) :
    ∀ (fuel op cl : Nat) (hj : Bool), body.length + 3 ≤ fuel →
      ∃ op' cl', jsonScan fuel (name ++ '(' :: (body ++ ';' :: tail)) op cl hj
        = ⟨op', cl', true, true⟩ := by
  intro fuel op cl hj hf
  obtain ⟨f1, rfl⟩ : ∃ f1, fuel = f1 + 1 := ⟨fuel - 1, by omega⟩
  have hfm : funcMatch (name ++ '(' :: (body ++ ';' :: tail)) = some name.length :=
    funcMatch_name hne hn hok hrp
  rw [jsonScan_step_func hfm f1 op cl hj, List.drop_left]
  obtain ⟨f2, rfl⟩ : ∃ f2, f1 = f2 + 1 := ⟨f1 - 1, by omega⟩
  rw [jsonScan_step_lparen (funcMatch_cons_not_name _ (by decide) (by decide))
    (opMatch_cons_not_op _ (by decide) (by decide))
    (tokenMatch_punct (k := .lparen) (by decide) (by decide) (by decide) (by decide))
    f2 op cl true]
  simp only [List.drop_succ_cons, List.drop_zero]
  exact jsonScan_body_semi f2 body tail (op + 1) cl hb (by omega)

/-- Complete run of the scanner on `word op body;tail`-shaped input: the
optional word token is consumed, the json operator matches, and the `;`
after the operand region stops the loop with `invalid = true`. -/
theorem jsonScan_op_semi {w oplit body : Str} (tail : Str)
    (hw : ∀ c ∈ w, isIdentChar c = true) (hop : oplit ∈ jsonOperators)
    (hb : ArgTokens sChar body) :
    ∀ (fuel op cl : Nat) (hj : Bool), w.length + body.length + 3 ≤ fuel →
      ∃ op' cl', jsonScan fuel (w ++ oplit ++ (body ++ ';' :: tail)) op cl hj
        = ⟨op', cl', true, true⟩ := by
  intro fuel op cl hj hf
  obtain ⟨s, opRest, rfl, hsname, hsword, hsws, hsparen⟩ := jsonOperators_shape hop
  have hhead : ∀ h, (body ++ ';' :: tail).head? = some h →
      h ≠ '>' ∧ h ≠ '|' ∧ h ≠ '&' := by
    intro h hh
    refine ⟨?_, ?_, ?_⟩ <;> rintro rfl <;>
      rcases argTokens_head_append hb hh with h1 | h1 | h1 <;>
      exact absurd h1 (by decide)
  have hoplit : opMatch ((s :: opRest) ++ (body ++ ';' :: tail)) =
      some (s :: opRest).length := opMatch_oplit hop hhead
  cases w with
  | nil =>
    rw [List.nil_append]
    obtain ⟨f1, rfl⟩ : ∃ f1, fuel = f1 + 1 := ⟨fuel - 1, by omega⟩
    have hfm : funcMatch ((s :: opRest) ++ (body ++ ';' :: tail)) = none := by
      rw [List.cons_append]
      exact funcMatch_cons_not_name _ hsws hsname
    rw [jsonScan_step_op hfm hoplit f1 op cl hj, List.drop_left]
    exact jsonScan_body_semi f1 body tail op cl hb (by omega)
  | cons a w' =>
    have ha : isIdentChar a = true := hw a (by simp)
    have hw' : ∀ c ∈ w', isIdentChar c = true := fun c hc => hw c (by simp [hc])
    have hassoc : (a :: w') ++ (s :: opRest) ++ (body ++ ';' :: tail)
        = (a :: w') ++ s :: (opRest ++ (body ++ ';' :: tail)) := by
      simp
    rw [hassoc]
    obtain ⟨f1, rfl⟩ : ∃ f1, fuel = f1 + 1 := ⟨fuel - 1, by omega⟩
    have hfm1 : funcMatch ((a :: w') ++ s :: (opRest ++ (body ++ ';' :: tail)))
        = none := funcMatch_none_of_ident_block ha hw' hsname hsparen
    have hom1 : opMatch ((a :: w') ++ s :: (opRest ++ (body ++ ';' :: tail)))
        = none := by
      rw [List.cons_append]
      exact opMatch_cons_not_op _ (isIdentChar_not_ws ha) (ident_not_opStart ha)
    have htok : tokenMatch ((a :: w') ++ s :: (opRest ++ (body ++ ';' :: tail)))
        = some ((a :: w').length, .other) := tokenMatch_ident_run ha hw' hsword
    rw [jsonScan_step_other hfm1 hom1 htok f1 op cl hj]
    have hdrop : ((a :: w') ++ s :: (opRest ++ (body ++ ';' :: tail))).drop
        (a :: w').length = (s :: opRest) ++ (body ++ ';' :: tail) := by
      rw [List.drop_left]
      simp
    rw [hdrop]
    obtain ⟨f2, rfl⟩ : ∃ f2, f1 = f2 + 1 := ⟨f1 - 1, by omega⟩
    have hfm2 : funcMatch ((s :: opRest) ++ (body ++ ';' :: tail)) = none := by
      rw [List.cons_append]
      exact funcMatch_cons_not_name _ hsws hsname
    rw [jsonScan_step_op hfm2 hoplit f2 op cl hj, List.drop_left]
    exact jsonScan_body_semi f2 body tail op cl hb (by omega)

/-- Complete run of the scanner on `name(body))`-shaped input with a
parenthesis-free argument region: the loop finishes with one `(` against
two `)`, leaving the brackets unbalanced and `hasJson = true`. -/
theorem jsonScan_func_np {name body : Str}
    (hne : name ≠ []) (hn : ∀ c ∈ name, isNameChar c = true)
    (hok : nameOk name = true) (hb : ArgTokens sCharNP body) :
    ∀ (fuel op cl : Nat) (hj : Bool), body.length + 5 ≤ fuel →
      jsonScan fuel (name ++ '(' :: (body ++ ')' :: [')'])) op cl hj
        = ⟨op + 1, cl + 2, true, false⟩ := by
  intro fuel op cl hj hf
  obtain ⟨f1, rfl⟩ : ∃ f1, fuel = f1 + 1 := ⟨fuel - 1, by omega⟩
  have hrp : ')' ∈ body ++ ')' :: [')'] := by simp
  have hfm : funcMatch (name ++ '(' :: (body ++ ')' :: [')'])) = some name.length :=
    funcMatch_name hne hn hok hrp
  rw [jsonScan_step_func hfm f1 op cl hj, List.drop_left]
  obtain ⟨f2, rfl⟩ : ∃ f2, f1 = f2 + 1 := ⟨f1 - 1, by omega⟩
  rw [jsonScan_step_lparen (funcMatch_cons_not_name _ (by decide) (by decide))
    (opMatch_cons_not_op _ (by decide) (by decide))
    (tokenMatch_punct (k := .lparen) (by decide) (by decide) (by decide) (by decide))
    f2 op cl true]
  simp only [List.drop_succ_cons, List.drop_zero]
  exact jsonScan_body_np f2 body (op + 1) cl hb (by omega)

/-- C4: `_checkValidJsonStatement` fails closed. (a) A recognized json
function call whose argument region (arbitrary word text, punctuation
and quoted strings) is followed by a `;` token throws. (b) A recognized
json operator — any of the nine alternatives, optionally preceded by an
identifier word — followed by an operand region and a `;` token throws.
(c) A recognized json function call with unbalanced parentheses throws.
(d) A string of characters that can form no json function or operator
returns `false` without throwing, and in general whenever the scan
detects no json construct the result is `ok false`. -/
theorem checkValidJsonStatement_spec :
    (∀ name body tail, name ≠ [] → (∀ c ∈ name, isNameChar c = true) →
        nameOk name = true → ArgTokens sChar body → ')' ∈ body ++ ';' :: tail →
        ∃ msg, checkValidJsonStatement (name ++ '(' :: (body ++ ';' :: tail)) =
          .error msg) ∧
    (∀ w oplit body tail, (∀ c ∈ w, isIdentChar c = true) →
        oplit ∈ jsonOperators → ArgTokens sChar body →
        ∃ msg, checkValidJsonStatement (w ++ oplit ++ (body ++ ';' :: tail)) =
          .error msg) ∧
    (∀ name body, name ≠ [] → (∀ c ∈ name, isNameChar c = true) →
        nameOk name = true → ArgTokens sCharNP body →
        ∃ msg, checkValidJsonStatement (name ++ '(' :: (body ++ ')' :: [')'])) =
          .error msg) ∧
    (∀ stmt, (∀ c ∈ stmt, benignChar c = true) →
        checkValidJsonStatement stmt = .ok false) ∧
    (∀ stmt, (jsonScan (stmt.length + 1) stmt 0 0 false).hasJson = false →
        checkValidJsonStatement stmt = .ok false) := by
  refine ⟨?_, ?_, ?_, ?_, ?_⟩
  · intro name body tail hne hn hok hb hrp
    obtain ⟨op', cl', hscan⟩ := jsonScan_func_semi hne hn hok hb hrp
      ((name ++ '(' :: (body ++ ';' :: tail)).length + 1) 0 0 false (by
        simp only [List.length_append, List.length_cons]
        omega)
    refine ⟨"Invalid json statement: ".data ++
      (name ++ '(' :: (body ++ ';' :: tail)), ?_⟩
    simp only [checkValidJsonStatement]
    rw [hscan]
    simp
  · intro w oplit body tail hw hop hb
    have hlb : 1 ≤ oplit.length := by
      obtain ⟨s, opRest, rfl, -⟩ := jsonOperators_shape hop
      simp
    obtain ⟨op', cl', hscan⟩ := jsonScan_op_semi tail hw hop hb
      ((w ++ oplit ++ (body ++ ';' :: tail)).length + 1) 0 0 false (by
        simp only [List.length_append, List.length_cons]
        omega)
    refine ⟨"Invalid json statement: ".data ++
      (w ++ oplit ++ (body ++ ';' :: tail)), ?_⟩
    simp only [checkValidJsonStatement]
    rw [hscan]
    simp
  · intro name body hne hn hok hb
    have hlb : 1 ≤ name.length := List.length_pos.mpr hne
    have hscan := jsonScan_func_np hne hn hok hb
      ((name ++ '(' :: (body ++ ')' :: [')'])).length + 1) 0 0 false (by
        simp only [List.length_append, List.length_cons]
        omega)
    refine ⟨"Invalid json statement: ".data ++
      (name ++ '(' :: (body ++ ')' :: [')'])), ?_⟩
    simp only [checkValidJsonStatement]
    rw [hscan]
    simp
  · intro stmt hbenign
    obtain ⟨op', cl', hscan⟩ :=
      jsonScan_benign (stmt.length + 1) stmt 0 0 hbenign
    simp only [checkValidJsonStatement]
    rw [hscan]
    simp
  · intro stmt hjson
    simp [checkValidJsonStatement, hjson]

set_option maxRecDepth 8192 in
theorem checkValidJsonStatement_spec_witness :
    (∃ msg, checkValidJsonStatement ("json_extract".data ++ '(' ::
        ("data, '$.id')".data ++ ';' :: " drop table t".data)) = .error msg) ∧
    (∃ msg, checkValidJsonStatement ("profile".data ++ "->>".data ++
        ("'$.name'".data ++ ';' :: " DELETE FROM t".data)) = .error msg) ∧
    (∃ msg, checkValidJsonStatement ("json_extract".data ++ '(' ::
        ("a, 1 + 2".data ++ ')' :: [')'])) = .error msg) ∧
    checkValidJsonStatement "col1.val, col2".data = .ok false ∧
    checkValidJsonStatement "SELECT 1".data = .ok false := by
  refine ⟨checkValidJsonStatement_spec.1 _ _ _ (by decide) (by decide) (by decide)
      (argTokensDec_sound 20 _ (by decide)) (by decide),
    checkValidJsonStatement_spec.2.1 _ _ _ _ (by decide) (by decide)
      (argTokensDec_sound 20 _ (by decide)),
    checkValidJsonStatement_spec.2.2.1 _ _ (by decide) (by decide) (by decide)
      (argTokensDec_sound 20 _ (by decide)),
    checkValidJsonStatement_spec.2.2.2.1 _ (by decide),
    checkValidJsonStatement_spec.2.2.2.2 _ (by decide)⟩
